import Mathlib

/-!
Verification of the RotaStellar Earth-Space Distributed Coordination Engine
(TypeScript sources) against its natural-language specification.

Modelling conventions, used throughout:

* JavaScript `number` values are modelled as exact rationals (`ℚ`).  The
  source performs no operation whose float rounding is load-bearing for the
  properties verified here; every concrete instance evaluated below is exact
  in IEEE doubles as well.
* A JavaScript `Map` is modelled as an insertion-ordered association list
  (`JsMap`): `set` overwrites in place or appends, `delete` removes,
  iteration follows the list.  A JavaScript `Set` of strings is an
  insertion-ordered duplicate-free list.
* `Math.round x` is `⌊x + 1/2⌋` (round half towards +∞), exactly JS
  semantics on the rationals.
* `Array.prototype.sort` (stable since ES2019) with comparator `c` is
  modelled by the stable sort `List.insertionSort` with the relation
  `fun a b => c a b ≤ 0`; two stable sorts with the same (total, transitive)
  comparator produce the same output list, so this is exact.
* `Math.random`-driven choices (the Fisher–Yates shuffle in `random_k`
  compression) are abstracted by an oracle `randJ : ℕ → ℕ` giving the value
  `Math.floor(Math.random() * (i + 1))`; theorems hypothesise `randJ i ≤ i`,
  which holds for every run since `Math.random ∈ [0, 1)`.
* Out-of-range JS array writes (which would extend the array / produce NaN)
  are modelled as no-ops by `List.set`; every theorem that depends on a
  write either proves or hypothesises the index in range, so the two
  semantics agree on all inputs considered.
-/

/-- JS `Math.round`: round half towards positive infinity. -/
def jsRound (q : ℚ) : ℤ := ⌊q + 1/2⌋

/-- JS `Math.round(x * 1000) / 1000` (three-decimal rounding in `findRoute`). -/
def round3 (q : ℚ) : ℚ := (jsRound (q * 1000) : ℚ) / 1000

/-- JS `Math.round(x * 100) / 100` (two-decimal rounding). -/
def round2 (q : ℚ) : ℚ := (jsRound (q * 100) : ℚ) / 100

/-- Insertion-ordered association list modelling a JavaScript `Map`. -/
abbrev JsMap (α β : Type) : Type := List (α × β)

namespace JsMap

variable {α β : Type} [DecidableEq α]

/-- The empty map (`new Map()`). -/
def empty : JsMap α β := []

/-- JS `map.get(k)`: first (and, with unique keys, only) binding. -/
def get (m : JsMap α β) (k : α) : Option β :=
  (m.find? (fun kv => kv.1 = k)).map (·.2)

/-- JS `map.set(k, v)`: overwrite in place if present, else append. -/
def set (m : JsMap α β) (k : α) (v : β) : JsMap α β :=
  match m with
  | [] => [(k, v)]
  | kv :: rest => if kv.1 = k then (k, v) :: rest else kv :: set rest k v

/-- JS `map.delete(k)` (all bindings of the key; with unique keys, the one). -/
def del (m : JsMap α β) (k : α) : JsMap α β :=
  m.filter (fun kv => ¬ kv.1 = k)

/-- JS `map.has(k)`. -/
def has (m : JsMap α β) (k : α) : Bool :=
  (m.find? (fun kv => kv.1 = k)).isSome

/-- The key list, in insertion order. -/
def keys (m : JsMap α β) : List α := m.map (·.1)

theorem get_set_self (m : JsMap α β) (k : α) (v : β) : get (set m k v) k = some v := by
  induction m with
  | nil => simp [get, set, List.find?]
  | cons kv rest ih =>
    by_cases h : kv.1 = k
    · simp [get, set, h, List.find?]
    · simpa [get, set, h, List.find?] using ih

theorem get_set_ne (m : JsMap α β) (k k' : α) (v : β) (hne : k' ≠ k) :
    get (set m k v) k' = get m k' := by
  induction m with
  | nil => simp [get, set, List.find?, hne, Ne.symm hne]
  | cons kv rest ih =>
    by_cases h : kv.1 = k
    · have h2 : ¬ kv.1 = k' := fun hh => hne (hh.symm.trans h)
      simp [get, set, h, h2, List.find?, Ne.symm hne]
    · by_cases h2 : kv.1 = k'
      · simp [get, set, h, h2, List.find?, hne]
      · simpa [get, set, h, h2, List.find?] using ih

theorem keys_set_of_mem (m : JsMap α β) (k : α) (v : β) (hk : k ∈ keys m) :
    keys (set m k v) = keys m := by
  induction m with
  | nil => simp [keys] at hk
  | cons kv rest ih =>
    by_cases h : kv.1 = k
    · simp [keys, set, h]
    · have hk' : k ∈ keys rest := by
        rcases (by simpa [keys] using hk) with h1 | h1
        · exact absurd h1.symm h
        · simpa [keys] using h1
      simp [keys, set, h]
      simpa [keys] using ih hk'

theorem get_eq_some_iff_mem_keys (m : JsMap α β) (k : α) :
    (∃ v, get m k = some v) ↔ k ∈ keys m := by
  induction m with
  | nil => simp [get, keys, List.find?]
  | cons kv rest ih =>
    by_cases h : kv.1 = k
    · simp [get, keys, List.find?, h]
    · simpa [get, keys, List.find?, h, Ne.symm h] using ih

theorem get_mem (m : JsMap α β) (k : α) (v : β) (h : get m k = some v) : (k, v) ∈ m := by
  induction m with
  | nil => simp [get, List.find?] at h
  | cons kv rest ih =>
    by_cases hk : kv.1 = k
    · have hv : kv.2 = v := by simpa [get, List.find?, hk] using h
      have hkv : kv = (k, v) := by
        rw [← hk, ← hv]
      rw [← hkv]
      exact List.mem_cons_self _ _
    · exact List.mem_cons_of_mem _ (ih (by simpa [get, List.find?, hk] using h))

end JsMap

/-! ## Gradient compression (federated-learning source file)

Embedding of `CompressionMethod`, `CompressionConfig`, `CompressedGradient`,
`GradientCompressor.compress` / `decompress` / `quantize`, and
`GradientAggregator`, translated from the TypeScript source. -/

/-- Gradient compression method (source enum `CompressionMethod`). -/
inductive CompressionMethod
  | none
  | topk
  | topk_quantized
  | random_k
  | quantization
deriving DecidableEq

/-- Strategy for aggregating gradients (source enum `AggregationStrategy`). -/
inductive AggregationStrategy
  | fedavg
  | async_fedavg
  | weighted_avg
deriving DecidableEq

/-- Configuration for gradient compression.  The source's constructor throws
when the validation below fails; `isValid` captures exactly that check.
The unused `seed` option is omitted (the source never reads it). -/
structure CompressionConfig where
  method : CompressionMethod
  kRatio : ℚ
  quantizationBits : ℕ
  errorFeedback : Bool
deriving DecidableEq

/-- Construction-time validation from the source's constructor:
`kRatio ∈ (0, 1]` and `quantizationBits ∈ {2, 4, 8, 16, 32}`. -/
def CompressionConfig.isValid (c : CompressionConfig) : Prop :=
  0 < c.kRatio ∧ c.kRatio ≤ 1 ∧ c.quantizationBits ∈ ([2, 4, 8, 16, 32] : List ℕ)

instance (c : CompressionConfig) : Decidable c.isValid := by
  unfold CompressionConfig.isValid
  infer_instance

/-- Compressed gradient representation (source interface `CompressedGradient`). -/
structure CompressedGradient where
  indices : List ℕ
  values : List ℚ
  shape : List ℕ
  originalSize : ℕ
  compressedSize : ℤ
  compressionRatio : ℚ
  quantizationBits : Option ℕ
deriving DecidableEq

/-- Compressor instance state: the config and the error-feedback accumulator
(`null` initially, a vector after a compress call with error feedback). -/
structure GradientCompressor where
  config : CompressionConfig
  errorAccumulator : Option (List ℚ)
deriving DecidableEq

/-- Smallest element of a rational list (`Math.min(...values)`; junk 0 on []). -/
def listMin : List ℚ → ℚ
  | [] => 0
  | [x] => x
  | x :: y :: rest => min x (listMin (y :: rest))

/-- Largest element of a rational list (`Math.max(...values)`; junk 0 on []). -/
def listMax : List ℚ → ℚ
  | [] => 0
  | [x] => x
  | x :: y :: rest => max x (listMax (y :: rest))

/-- Linear quantization of the selected values (source `quantize`): snap each
value to one of `2^bits` levels between the subset's min and max; identity
when the range is zero or the list empty. -/
def GradientCompressor.quantize (c : GradientCompressor) (values : List ℚ) : List ℚ :=
  if values = [] then values
  else
    let minVal := listMin values
    let maxVal := listMax values
    let rangeVal := maxVal - minVal
    if rangeVal = 0 then values
    else
      let levels : ℚ := 2 ^ c.config.quantizationBits
      let scale := rangeVal / (levels - 1)
      values.map (fun v => minVal + (jsRound ((v - minVal) / scale) : ℚ) * scale)

/-- One Fisher–Yates swap step: exchange positions `i` and `j` (no-op when out
of range, which the in-range oracle hypothesis rules out). -/
def listSwap {γ : Type} (l : List γ) (i j : ℕ) : List γ :=
  match l.get? i, l.get? j with
  | some a, some b => (l.set i b).set j a
  | _, _ => l

/-- Fisher–Yates shuffle of `l` driven by the oracle `randJ` (source loop
`for (let i = n-1; i > 0; i--) swap(i, randJ i)`), by descending `i`. -/
def jsShuffle {γ : Type} (randJ : ℕ → ℕ) : ℕ → List γ → List γ
  | 0, l => l
  | i + 1, l => jsShuffle randJ i (listSwap l (i + 1) (randJ (i + 1)))

/-- Zero-filled scatter (source `decompress` body and the reconstruction step
inside `compress`): start from `n` zeros and write `values[i]` at
`indices[i]`. -/
def scatterZero (n : ℕ) (indices : List ℕ) (values : List ℚ) : List ℚ :=
  ((indices.zip values).foldl (fun arr iv => arr.set iv.1 iv.2) (List.replicate n 0))

/-- Decompress a compressed gradient to a dense zero-filled vector
(source `GradientCompressor.decompress`). -/
def GradientCompressor.decompress (compressed : CompressedGradient) : List ℚ :=
  scatterZero compressed.originalSize compressed.indices compressed.values

/-- The top-k candidate list: value pairs `(i, v)` sorted by `|v|` descending
with the source's stable comparator `(a, b) => b.abs - a.abs`. -/
def topKSorted (working : List ℚ) : List (ℕ × ℚ) :=
  (working.enum).insertionSort (fun a b => |b.2| ≤ |a.2|)

/-- The working vector of a compress call: the input, plus the stored error
residual when error feedback has an accumulator. -/
def GradientCompressor.working (c : GradientCompressor) (gradients : List ℚ) : List ℚ :=
  match c.config.errorFeedback, c.errorAccumulator with
  | true, some acc => gradients.mapIdx (fun i g => g + acc.getD i 0)
  | _, _ => gradients

/-- The selection count `k = max(1, floor(n * kRatio))`. -/
def kOf (n : ℕ) (ratio : ℚ) : ℕ := max 1 ((⌊(n : ℚ) * ratio⌋).toNat)

/-- Indices selected by a non-`none` compress call (top-k paths sort by
absolute value; every other method Fisher–Yates-shuffles `0..n-1`). -/
def GradientCompressor.selectIndices (randJ : ℕ → ℕ) (c : GradientCompressor)
    (working : List ℚ) (k : ℕ) : List ℕ :=
  if c.config.method = CompressionMethod.topk ∨
      c.config.method = CompressionMethod.topk_quantized then
    ((topKSorted working).take k).map (fun p => p.1)
  else
    (jsShuffle randJ (working.length - 1) (List.range working.length)).take k

/-- The values paired with the selection: the sorted pairs' values on the
top-k paths, verbatim lookups on the shuffle path. -/
def GradientCompressor.selectValues (randJ : ℕ → ℕ) (c : GradientCompressor)
    (working : List ℚ) (k : ℕ) : List ℚ :=
  if c.config.method = CompressionMethod.topk ∨
      c.config.method = CompressionMethod.topk_quantized then
    ((topKSorted working).take k).map (fun p => p.2)
  else
    (GradientCompressor.selectIndices randJ c working k).map (fun i => working.getD i 0)

/-- Gradient compression (source `GradientCompressor.compress`), returning the
compressed gradient and the successor compressor state.  `randJ` is the
`Math.random` oracle used only on the `random_k` path. -/
def GradientCompressor.compress (randJ : ℕ → ℕ) (c : GradientCompressor)
    (gradients : List ℚ) : CompressedGradient × GradientCompressor :=
  let originalSize := gradients.length
  let workingGradients := c.working gradients
  if c.config.method = CompressionMethod.none then
    (⟨List.range originalSize, workingGradients, [originalSize], originalSize,
      (originalSize : ℤ) * 4, 1, Option.none⟩, c)
  else
    let k := kOf originalSize c.config.kRatio
    let indices := GradientCompressor.selectIndices randJ c workingGradients k
    let rawValues := GradientCompressor.selectValues randJ c workingGradients k
    let values :=
      if c.config.method = CompressionMethod.topk_quantized then c.quantize rawValues
      else rawValues
    let newState :=
      if c.config.errorFeedback then
        let reconstructed := scatterZero originalSize indices values
        let acc := List.zipWith (fun g r => g - r) workingGradients reconstructed
        { c with errorAccumulator := some acc }
      else c
    let bitsPerValue : ℕ :=
      if c.config.method = CompressionMethod.topk_quantized then c.config.quantizationBits
      else 32
    let compressedBits : ℕ := k * (32 + bitsPerValue)
    let compressedSize : ℤ := (compressedBits : ℤ) / 8
    (⟨indices, values, [originalSize], originalSize, compressedSize,
      (compressedSize : ℚ) / ((originalSize : ℚ) * 4),
      if c.config.method = CompressionMethod.topk_quantized then
        some c.config.quantizationBits
      else Option.none⟩, newState)

/-- Central aggregator state (source class `GradientAggregator`): strategy,
minimum participant threshold, optional configured model size, the pending
map keyed by node id, and the internal round counter. -/
structure GradientAggregator where
  strategy : AggregationStrategy
  minParticipants : ℕ
  modelSize : Option ℕ
  pendingGradients : JsMap String (CompressedGradient × ℚ)
  round : ℕ

/-- Source `receiveGradients`: last-write-wins insert keyed by node id. -/
def GradientAggregator.receiveGradients (a : GradientAggregator) (nodeId : String)
    (gradients : CompressedGradient) (samples : ℚ) : GradientAggregator :=
  { a with pendingGradients := JsMap.set a.pendingGradients nodeId (gradients, samples) }

/-- Source getter `numParticipants`. -/
def GradientAggregator.numParticipants (a : GradientAggregator) : ℕ :=
  a.pendingGradients.length

/-- Source `readyToAggregate`. -/
def GradientAggregator.readyToAggregate (a : GradientAggregator) : Bool :=
  a.numParticipants ≥ a.minParticipants

/-- JS `arr[idx] += v` on a dense rational vector (no-op out of range; the
aggregation theorems prove or hypothesise `idx` in range). -/
def addAt (arr : List ℚ) (idx : ℕ) (v : ℚ) : List ℚ :=
  arr.set idx (arr.getD idx 0 + v)

/-- Source private `fedAvg`: sample-count-weighted scatter-add of every
pending contribution into a zero vector of length `modelSize`. -/
def GradientAggregator.fedAvg (a : GradientAggregator) (modelSize : ℕ) : List ℚ :=
  let totalSamples := (a.pendingGradients.map (fun kv => kv.2.2)).sum
  a.pendingGradients.foldl
    (fun agg kv =>
      let weight := kv.2.2 / totalSamples
      (kv.2.1.indices.zip kv.2.1.values).foldl
        (fun arr iv => addAt arr iv.1 (iv.2 * weight)) agg)
    (List.replicate modelSize 0)

/-- Source private `asyncFedAvg`: equal-weight (`1/n`) scatter-add. -/
def GradientAggregator.asyncFedAvg (a : GradientAggregator) (modelSize : ℕ) : List ℚ :=
  let n : ℚ := (a.pendingGradients.length : ℚ)
  a.pendingGradients.foldl
    (fun agg kv =>
      (kv.2.1.indices.zip kv.2.1.values).foldl
        (fun arr iv => addAt arr iv.1 (iv.2 / n)) agg)
    (List.replicate modelSize 0)

/-- Source `aggregate`: error on an empty pending set, otherwise dispatch on
the strategy, then clear the pending set and increment the round counter. -/
def GradientAggregator.aggregate (a : GradientAggregator) :
    Except String (List ℚ × GradientAggregator) :=
  match a.pendingGradients with
  | [] => Except.error "No gradients to aggregate"
  | fst :: _ =>
    let modelSize := a.modelSize.getD fst.2.1.originalSize
    let result :=
      if a.strategy = AggregationStrategy.fedavg then a.fedAvg modelSize
      else if a.strategy = AggregationStrategy.weighted_avg then a.fedAvg modelSize
      else a.asyncFedAvg modelSize
    Except.ok (result, { a with pendingGradients := [], round := a.round + 1 })

/-! ## Basic length and membership lemmas for the compression pipeline -/

theorem listSwap_length {γ : Type} (l : List γ) (i j : ℕ) :
    (listSwap l i j).length = l.length := by
  unfold listSwap
  cases l.get? i <;> cases l.get? j <;> simp

theorem jsShuffle_length {γ : Type} (randJ : ℕ → ℕ) :
    ∀ (i : ℕ) (l : List γ), (jsShuffle randJ i l).length = l.length := by
  intro i
  induction i with
  | zero => intro l; rfl
  | succ n ih => intro l; rw [jsShuffle, ih, listSwap_length]

theorem mem_of_mem_listSwap {γ : Type} {l : List γ} {i j : ℕ} {x : γ}
    (hx : x ∈ listSwap l i j) : x ∈ l := by
  unfold listSwap at hx
  cases hi : l.get? i with
  | none => rw [hi] at hx; exact hx
  | some a =>
    cases hj : l.get? j with
    | none => rw [hi, hj] at hx; exact hx
    | some b =>
      rw [hi, hj] at hx
      have ha : a ∈ l := List.get?_mem hi
      have hb : b ∈ l := List.get?_mem hj
      rcases List.mem_or_eq_of_mem_set hx with h1 | h1
      · rcases List.mem_or_eq_of_mem_set h1 with h2 | h2
        · exact h2
        · rw [h2]; exact hb
      · rw [h1]; exact ha

theorem mem_of_mem_jsShuffle {γ : Type} (randJ : ℕ → ℕ) :
    ∀ (i : ℕ) (l : List γ) (x : γ), x ∈ jsShuffle randJ i l → x ∈ l := by
  intro i
  induction i with
  | zero => intro l x hx; exact hx
  | succ n ih =>
    intro l x hx
    exact mem_of_mem_listSwap (ih _ x hx)

theorem quantize_length (c : GradientCompressor) (vs : List ℚ) :
    (c.quantize vs).length = vs.length := by
  unfold GradientCompressor.quantize
  split
  · rfl
  · dsimp only
    split
    · rfl
    · simp

theorem topKSorted_perm (w : List ℚ) : (topKSorted w).Perm w.enum :=
  List.perm_insertionSort _ _

theorem topKSorted_length (w : List ℚ) : (topKSorted w).length = w.length := by
  rw [(topKSorted_perm w).length_eq, List.enum_length]

theorem foldl_set_length (pairs : List (ℕ × ℚ)) :
    ∀ arr : List ℚ, (pairs.foldl (fun arr iv => arr.set iv.1 iv.2) arr).length = arr.length := by
  induction pairs with
  | nil => intro arr; rfl
  | cons p rest ih => intro arr; rw [List.foldl_cons, ih]; simp

theorem scatterZero_length (n : ℕ) (indices : List ℕ) (values : List ℚ) :
    (scatterZero n indices values).length = n := by
  unfold scatterZero
  rw [foldl_set_length]
  simp

theorem working_length (c : GradientCompressor) (g : List ℚ) :
    (c.working g).length = g.length := by
  unfold GradientCompressor.working
  cases c.config.errorFeedback <;> cases c.errorAccumulator <;> simp

theorem kOf_le (n : ℕ) (r : ℚ) (h1 : r ≤ 1) (hn : 1 ≤ n) : kOf n r ≤ n := by
  unfold kOf
  have h2 : (n : ℚ) * r ≤ (n : ℚ) := by
    calc (n : ℚ) * r ≤ (n : ℚ) * 1 := by
          exact mul_le_mul_of_nonneg_left h1 (by positivity)
      _ = (n : ℚ) := mul_one _
  have h3 : ⌊(n : ℚ) * r⌋ ≤ (n : ℤ) := by
    calc ⌊(n : ℚ) * r⌋ ≤ ⌊(n : ℚ)⌋ := Int.floor_le_floor h2
      _ = (n : ℤ) := Int.floor_natCast n
  have h4 : (⌊(n : ℚ) * r⌋).toNat ≤ n := by
    exact Int.toNat_le.mpr h3
  exact max_le hn h4

theorem selectIndices_length (randJ : ℕ → ℕ) (c : GradientCompressor)
    (working : List ℚ) (k : ℕ) (hk : k ≤ working.length) :
    (GradientCompressor.selectIndices randJ c working k).length = k := by
  unfold GradientCompressor.selectIndices
  split
  · rw [List.length_map, List.length_take, topKSorted_length]
    exact min_eq_left hk
  · rw [List.length_take, jsShuffle_length, List.length_range]
    exact min_eq_left hk

theorem selectValues_length (randJ : ℕ → ℕ) (c : GradientCompressor)
    (working : List ℚ) (k : ℕ) (hk : k ≤ working.length) :
    (GradientCompressor.selectValues randJ c working k).length = k := by
  unfold GradientCompressor.selectValues
  split
  · rw [List.length_map, List.length_take, topKSorted_length]
    exact min_eq_left hk
  · rw [List.length_map, selectIndices_length randJ c working k hk]

/-- C2.  For every gradient vector of length `n ≥ 1` and every valid
`CompressionConfig` with `kRatio ∈ (0, 1]`, `compress` returns exactly
`max(1, floor(n * kRatio))` selected indices, with a values array of the
same length, for every method other than `none`; with method `none` it
selects all `n` indices `0..n-1` (values of the same length). -/
theorem compress_selects_k (cfg : CompressionConfig) (acc : Option (List ℚ))
    (randJ : ℕ → ℕ) (v : List ℚ) (hv : cfg.isValid) (hn : 1 ≤ v.length) :
    (cfg.method ≠ CompressionMethod.none →
      (GradientCompressor.compress randJ ⟨cfg, acc⟩ v).1.indices.length
          = max 1 ((⌊(v.length : ℚ) * cfg.kRatio⌋).toNat) ∧
      (GradientCompressor.compress randJ ⟨cfg, acc⟩ v).1.values.length
          = max 1 ((⌊(v.length : ℚ) * cfg.kRatio⌋).toNat)) ∧
    (cfg.method = CompressionMethod.none →
      (GradientCompressor.compress randJ ⟨cfg, acc⟩ v).1.indices = List.range v.length ∧
      (GradientCompressor.compress randJ ⟨cfg, acc⟩ v).1.values.length = v.length) := by
  have hwl : ((⟨cfg, acc⟩ : GradientCompressor).working v).length = v.length :=
    working_length _ v
  have hk : kOf v.length cfg.kRatio ≤ ((⟨cfg, acc⟩ : GradientCompressor).working v).length := by
    rw [hwl]
    exact kOf_le v.length cfg.kRatio hv.2.1 hn
  constructor
  · intro hne
    unfold GradientCompressor.compress
    dsimp only
    rw [if_neg hne]
    refine ⟨selectIndices_length randJ _ _ _ hk, ?_⟩
    split
    · rw [quantize_length, selectValues_length randJ _ _ _ hk]
      rfl
    · rw [selectValues_length randJ _ _ _ hk]
      rfl
  · intro heq
    unfold GradientCompressor.compress
    dsimp only
    rw [if_pos heq]
    exact ⟨rfl, hwl⟩

/-- C2 witness: a concrete valid config (`topk`, ratio 1/2) on a 3-vector
selects `max(1, ⌊3·(1/2)⌋)` indices. -/
theorem compress_selects_k_witness :
    ((⟨CompressionMethod.topk, mkRat 1 2, 8, false⟩ : CompressionConfig).isValid ∧
      1 ≤ ([5, -7, 2] : List ℚ).length) ∧
    ((GradientCompressor.compress (fun _ => 0)
        ⟨⟨CompressionMethod.topk, mkRat 1 2, 8, false⟩, Option.none⟩ [5, -7, 2]).1.indices.length
        = max 1 ((⌊(([5, -7, 2] : List ℚ).length : ℚ) * mkRat 1 2⌋).toNat)) := by
  refine ⟨⟨by decide, by decide⟩, ?_⟩
  exact ((compress_selects_k ⟨CompressionMethod.topk, mkRat 1 2, 8, false⟩ Option.none
    (fun _ => 0) [5, -7, 2] (by decide) (by decide)).1 (by decide)).1

/-- C7 (amended).  Every call to `aggregate()` on a non-empty pending set —
with no `readyToAggregate()` precondition whatsoever — succeeds, clears the
pending contribution set and increments the internal round counter; calling
it with zero pending contributions raises the error
`"No gradients to aggregate"` (capital N, as the source writes it). -/
theorem aggregate_clears_rounds_and_errors (a : GradientAggregator) :
    (a.pendingGradients ≠ [] →
      ∃ result, a.aggregate = Except.ok
        (result, { a with pendingGradients := [], round := a.round + 1 })) ∧
    (a.pendingGradients = [] →
      a.aggregate = Except.error "No gradients to aggregate") := by
  constructor
  · intro hne
    unfold GradientAggregator.aggregate
    match hp : a.pendingGradients with
    | [] => exact absurd hp hne
    | fst :: rest => exact ⟨_, rfl⟩
  · intro he
    unfold GradientAggregator.aggregate
    rw [he]

/-- C7 counterexample to the quoted error message: on an empty aggregator the
source raises `"No gradients to aggregate"`, not the claim's literal
`"no gradients to aggregate"`. -/
theorem aggregate_error_message_counterexample :
    (⟨AggregationStrategy.fedavg, 1, Option.none, [], 0⟩ :
        GradientAggregator).aggregate
      = Except.error "No gradients to aggregate" ∧
    (⟨AggregationStrategy.fedavg, 1, Option.none, [], 0⟩ :
        GradientAggregator).aggregate
      ≠ Except.error "no gradients to aggregate" := by
  constructor
  · rfl
  · intro h
    have : "No gradients to aggregate" = "no gradients to aggregate" :=
      Except.error.inj (by rw [← h]; rfl)
    exact absurd this (by decide)

/-- C7 witness: a concrete aggregator with one pending contribution but
`minParticipants = 2` (so `readyToAggregate()` is false) still clears its
pending set and moves from round 0 to round 1. -/
theorem aggregate_clears_rounds_witness :
    ((⟨AggregationStrategy.fedavg, 2, some 2,
        [("n1", ⟨[0], [5], [2], 2, 8, 1, Option.none⟩, 1)], 0⟩ :
          GradientAggregator).pendingGradients ≠ [] ∧
      (⟨AggregationStrategy.fedavg, 2, some 2,
        [("n1", ⟨[0], [5], [2], 2, 8, 1, Option.none⟩, 1)], 0⟩ :
          GradientAggregator).readyToAggregate = false) ∧
    ∃ result, (⟨AggregationStrategy.fedavg, 2, some 2,
        [("n1", ⟨[0], [5], [2], 2, 8, 1, Option.none⟩, 1)], 0⟩ :
          GradientAggregator).aggregate = Except.ok
        (result, ⟨AggregationStrategy.fedavg, 2, some 2, [], 1⟩) := by
  refine ⟨⟨by decide, by decide⟩, ?_⟩
  exact (aggregate_clears_rounds_and_errors
    ⟨AggregationStrategy.fedavg, 2, some 2,
      [("n1", ⟨[0], [5], [2], 2, 8, 1, Option.none⟩, 1)], 0⟩).1 (by decide)

/-! ## Scatter lemmas: what `decompress` / reconstruction put at each index -/

theorem foldl_set_getD_not_mem (pairs : List (ℕ × ℚ)) :
    ∀ (j : ℕ), j ∉ pairs.map Prod.fst →
    ∀ arr : List ℚ, (pairs.foldl (fun a iv => a.set iv.1 iv.2) arr).getD j 0
      = arr.getD j 0 := by
  induction pairs with
  | nil => intro j hj arr; rfl
  | cons p rest ih =>
    intro j hj arr
    have hj1 : j ∉ rest.map Prod.fst := fun h => hj (by rw [List.map_cons]; exact List.mem_cons_of_mem _ h)
    have hj2 : p.1 ≠ j := by
      intro h
      exact hj (by rw [List.map_cons, h]; exact List.mem_cons_self _ _)
    rw [List.foldl_cons, ih j hj1]
    simp [List.getD_eq_getElem?_getD, List.getElem?_set_ne hj2]

theorem foldl_set_getD_mem (pairs : List (ℕ × ℚ)) :
    ∀ (j : ℕ) (w : ℚ), (∀ iv ∈ pairs, iv.1 = j → iv.2 = w) →
    j ∈ pairs.map Prod.fst →
    ∀ arr : List ℚ, j < arr.length →
      (pairs.foldl (fun a iv => a.set iv.1 iv.2) arr).getD j 0 = w := by
  induction pairs with
  | nil => intro j w _ hjmem; simp at hjmem
  | cons p rest ih =>
    intro j w hw hjmem arr hlen
    rw [List.foldl_cons]
    by_cases hr : j ∈ rest.map Prod.fst
    · exact ih j w (fun iv hm => hw iv (List.mem_cons_of_mem _ hm)) hr _
        (by rw [List.length_set]; exact hlen)
    · have hp : p.1 = j := by
        rw [List.map_cons] at hjmem
        rcases List.mem_cons.mp hjmem with h | h
        · exact h.symm
        · exact absurd h hr
      have hval : p.2 = w := hw p (List.mem_cons_self _ _) hp
      rw [foldl_set_getD_not_mem rest j hr]
      rw [hp, hval]
      simp [List.getD_eq_getElem?_getD, List.getElem?_set_self, hlen]

theorem scatterZero_getD_not_mem (n : ℕ) (ind : List ℕ) (vals : List ℚ) (j : ℕ)
    (hj : j ∉ ind) : (scatterZero n ind vals).getD j 0 = 0 := by
  unfold scatterZero
  have hj2 : j ∉ (ind.zip vals).map Prod.fst := by
    intro hmem
    rcases List.mem_map.mp hmem with ⟨iv, hiv, h1⟩
    have := List.of_mem_zip (by rw [← @Prod.mk.eta _ _ iv] at hiv; exact hiv)
    rw [h1] at this
    exact hj this.1
  rw [foldl_set_getD_not_mem _ _ hj2]
  rcases Nat.lt_or_ge j n with h | h
  · simp [List.getD_eq_getElem?_getD, List.getElem?_replicate, h]
  · rw [List.getD_eq_getElem?_getD, List.getElem?_eq_none (by simpa using h)]
    rfl

theorem scatterZero_getD_mem (n : ℕ) (ind : List ℕ) (vals : List ℚ) (j : ℕ) (w : ℚ)
    (hlen : ind.length ≤ vals.length)
    (hw : ∀ iv ∈ ind.zip vals, iv.1 = j → iv.2 = w)
    (hjmem : j ∈ ind) (hjn : j < n) :
    (scatterZero n ind vals).getD j 0 = w := by
  unfold scatterZero
  have hfst : (ind.zip vals).map Prod.fst = ind := List.map_fst_zip _ _ hlen
  exact foldl_set_getD_mem _ j w hw (by rw [hfst]; exact hjmem) _
    (by rw [List.length_replicate]; exact hjn)

theorem mem_enum_getD {w : List ℚ} {iv : ℕ × ℚ} (h : iv ∈ w.enum) :
    iv.2 = w.getD iv.1 0 := by
  have h2 := List.mem_enum_iff_get?.mp h
  rw [List.getD_eq_get?, h2]
  rfl

theorem mem_enum_lt {w : List ℚ} {iv : ℕ × ℚ} (h : iv ∈ w.enum) :
    iv.1 < w.length :=
  (List.get?_eq_some.mp (List.mem_enum_iff_get?.mp h)).1

theorem zip_self_map (l : List ℕ) (f : ℕ → ℚ) :
    ∀ iv ∈ l.zip (l.map f), iv.2 = f iv.1 := by
  induction l with
  | nil => intro iv h; simp at h
  | cons x xs ih =>
    intro iv h
    rw [List.map_cons, List.zip_cons_cons] at h
    rcases List.mem_cons.mp h with h1 | h1
    · rw [h1]
    · exact ih iv h1

theorem mem_topKSorted_take {w : List ℚ} {k : ℕ} {iv : ℕ × ℚ}
    (h : iv ∈ (topKSorted w).take k) : iv ∈ w.enum :=
  (topKSorted_perm w).mem_iff.mp (List.mem_of_mem_take h)

theorem selectPairs_consistent (randJ : ℕ → ℕ) (c : GradientCompressor)
    (working : List ℚ) (k : ℕ) :
    ∀ iv ∈ (GradientCompressor.selectIndices randJ c working k).zip
        (GradientCompressor.selectValues randJ c working k),
      iv.2 = working.getD iv.1 0 := by
  unfold GradientCompressor.selectIndices GradientCompressor.selectValues
  split
  · intro iv hiv
    have hzip : ((((topKSorted working).take k).map (fun p => p.1)).zip
        (((topKSorted working).take k).map (fun p => p.2)))
        = ((topKSorted working).take k).map (fun p => (p.1, p.2)) :=
      (List.zip_map' _ _ _)
    rw [hzip] at hiv
    rcases List.mem_map.mp hiv with ⟨p, hp, hpe⟩
    have hpe2 : iv = p := by rw [← hpe]
    rw [hpe2]
    exact mem_enum_getD (mem_topKSorted_take hp)
  · rename_i h
    rw [GradientCompressor.selectIndices, if_neg h]
    exact zip_self_map _ _

theorem selectIndices_lt (randJ : ℕ → ℕ) (c : GradientCompressor)
    (working : List ℚ) (k : ℕ) :
    ∀ j ∈ GradientCompressor.selectIndices randJ c working k, j < working.length := by
  unfold GradientCompressor.selectIndices
  split
  · intro j hj
    rcases List.mem_map.mp hj with ⟨p, hp, hpe⟩
    rw [← hpe]
    exact mem_enum_lt (mem_topKSorted_take hp)
  · intro j hj
    have h1 : j ∈ jsShuffle randJ (working.length - 1) (List.range working.length) :=
      List.mem_of_mem_take hj
    have h2 : j ∈ List.range working.length := mem_of_mem_jsShuffle randJ _ _ _ h1
    exact List.mem_range.mp h2

theorem selectValues_length_eq (randJ : ℕ → ℕ) (c : GradientCompressor)
    (working : List ℚ) (k : ℕ) :
    (GradientCompressor.selectValues randJ c working k).length
      = (GradientCompressor.selectIndices randJ c working k).length := by
  unfold GradientCompressor.selectIndices GradientCompressor.selectValues
  split
  · simp
  · rename_i h
    rw [GradientCompressor.selectIndices, if_neg h]
    simp

theorem working_eq_of (cfg : CompressionConfig) (acc : Option (List ℚ)) (v : List ℚ)
    (hacc : cfg.errorFeedback = false ∨ acc = Option.none) :
    (⟨cfg, acc⟩ : GradientCompressor).working v = v := by
  unfold GradientCompressor.working
  rcases hacc with h | h
  · rw [h]
  · rw [h]
    cases cfg.errorFeedback <;> rfl

/-- C3 (amended).  For every gradient vector and every valid
`CompressionConfig` whose method does not quantize (`none`, `topk`,
`random_k`, `quantization`), and with no accumulated error feedback (fresh
compressor, or error feedback disabled), `decompress (compress v)` yields a
vector of the original length that equals `v` exactly at the selected
indices and is zero at every other index.  (With method `topk_quantized`
the reconstruction carries quantized values, see the counterexample.) -/
theorem decompress_compress_exact (cfg : CompressionConfig) (acc : Option (List ℚ))
    (randJ : ℕ → ℕ) (v : List ℚ) (_hv : cfg.isValid)
    (hq : cfg.method ≠ CompressionMethod.topk_quantized)
    (hacc : cfg.errorFeedback = false ∨ acc = Option.none) :
    (GradientCompressor.decompress
        (GradientCompressor.compress randJ ⟨cfg, acc⟩ v).1).length = v.length ∧
    (∀ j ∈ (GradientCompressor.compress randJ ⟨cfg, acc⟩ v).1.indices,
      (GradientCompressor.decompress
        (GradientCompressor.compress randJ ⟨cfg, acc⟩ v).1).getD j 0 = v.getD j 0) ∧
    (∀ j, j ∉ (GradientCompressor.compress randJ ⟨cfg, acc⟩ v).1.indices →
      (GradientCompressor.decompress
        (GradientCompressor.compress randJ ⟨cfg, acc⟩ v).1).getD j 0 = 0) := by
  have hworking : (⟨cfg, acc⟩ : GradientCompressor).working v = v :=
    working_eq_of cfg acc v hacc
  by_cases hm : cfg.method = CompressionMethod.none
  · unfold GradientCompressor.compress
    dsimp only
    rw [if_pos hm, hworking]
    unfold GradientCompressor.decompress
    dsimp only
    refine ⟨scatterZero_length _ _ _, ?_, ?_⟩
    · intro j hj
      have hjn : j < v.length := List.mem_range.mp hj
      refine scatterZero_getD_mem _ _ _ j _ (by simp) ?_ hj hjn
      intro iv hiv h1
      have hiv2 : iv ∈ v.enum := by
        rw [List.enum_eq_zip_range]
        exact hiv
      rw [← h1]
      exact mem_enum_getD hiv2
    · intro j hj
      exact scatterZero_getD_not_mem _ _ _ j hj
  · unfold GradientCompressor.compress
    dsimp only
    rw [if_neg hm, hworking]
    rw [if_neg hq]
    unfold GradientCompressor.decompress
    dsimp only
    refine ⟨scatterZero_length _ _ _, ?_, ?_⟩
    · intro j hj
      have hjn : j < v.length := selectIndices_lt randJ _ v _ j hj
      refine scatterZero_getD_mem _ _ _ j _ ?_ ?_ hj hjn
      · rw [selectValues_length_eq]
      · intro iv hiv h1
        have := selectPairs_consistent randJ _ v _ iv hiv
        rw [← h1]
        exact this
    · intro j hj
      exact scatterZero_getD_not_mem _ _ _ j hj

/-- C3 counterexample: with the valid config `topk_quantized`, ratio 1,
2 bits, on the vector `[0, 1, 10]`, index 1 is selected yet the
reconstruction is 0 there while the original value is 1 — quantization
replaces selected values, so the round trip is not exact as claimed. -/
theorem decompress_compress_counterexample :
    (⟨CompressionMethod.topk_quantized, 1, 2, false⟩ : CompressionConfig).isValid ∧
    1 ∈ (GradientCompressor.compress (fun _ => 0)
        ⟨⟨CompressionMethod.topk_quantized, 1, 2, false⟩, Option.none⟩
        [0, 1, 10]).1.indices ∧
    (GradientCompressor.decompress (GradientCompressor.compress (fun _ => 0)
        ⟨⟨CompressionMethod.topk_quantized, 1, 2, false⟩, Option.none⟩
        [0, 1, 10]).1).getD 1 0
      ≠ ([0, 1, 10] : List ℚ).getD 1 0 := by
  refine ⟨⟨by norm_num, by norm_num, by norm_num⟩, ?_, ?_⟩ <;>
    norm_num +decide [GradientCompressor.compress, GradientCompressor.working, kOf,
      GradientCompressor.selectIndices, GradientCompressor.selectValues, topKSorted,
      GradientCompressor.quantize, GradientCompressor.decompress, listMin, listMax,
      jsRound, List.insertionSort, List.orderedInsert, scatterZero, List.enum,
      List.enumFrom, List.replicate, List.set]

/-- C3 witness: the round trip at the concrete valid config (`topk`, ratio 1)
and vector `[5, -7, 2]`. -/
theorem decompress_compress_exact_witness :
    ((⟨CompressionMethod.topk, 1, 8, false⟩ : CompressionConfig).isValid ∧
      (⟨CompressionMethod.topk, 1, 8, false⟩ : CompressionConfig).method
        ≠ CompressionMethod.topk_quantized) ∧
    ((GradientCompressor.decompress
        (GradientCompressor.compress (fun _ => 0)
          ⟨⟨CompressionMethod.topk, 1, 8, false⟩, Option.none⟩ [5, -7, 2]).1).length
        = ([5, -7, 2] : List ℚ).length ∧
    (∀ j ∈ (GradientCompressor.compress (fun _ => 0)
          ⟨⟨CompressionMethod.topk, 1, 8, false⟩, Option.none⟩ [5, -7, 2]).1.indices,
      (GradientCompressor.decompress
        (GradientCompressor.compress (fun _ => 0)
          ⟨⟨CompressionMethod.topk, 1, 8, false⟩, Option.none⟩ [5, -7, 2]).1).getD j 0
        = ([5, -7, 2] : List ℚ).getD j 0) ∧
    (∀ j, j ∉ (GradientCompressor.compress (fun _ => 0)
          ⟨⟨CompressionMethod.topk, 1, 8, false⟩, Option.none⟩ [5, -7, 2]).1.indices →
      (GradientCompressor.decompress
        (GradientCompressor.compress (fun _ => 0)
          ⟨⟨CompressionMethod.topk, 1, 8, false⟩, Option.none⟩ [5, -7, 2]).1).getD j 0
        = 0)) := by
  refine ⟨⟨⟨by norm_num, by norm_num, by norm_num⟩, by decide⟩, ?_⟩
  exact decompress_compress_exact ⟨CompressionMethod.topk, 1, 8, false⟩ Option.none
    (fun _ => 0) [5, -7, 2] ⟨by norm_num, by norm_num, by norm_num⟩ (by decide)
    (Or.inl rfl)

/-! ## Error-feedback residual magnitudes (C9) -/

/-- The L1 magnitude of a vector. -/
def l1Norm (l : List ℚ) : ℚ := (l.map (fun x => |x|)).sum

/-- The sup magnitude of a vector (0 for the empty vector). -/
def supNorm (l : List ℚ) : ℚ := listMax (l.map (fun x => |x|))

/-- The sum of squares of a vector (squared Euclidean magnitude). -/
def sumSq (l : List ℚ) : ℚ := (l.map (fun x => x * x)).sum

theorem l1Norm_nonneg (l : List ℚ) : 0 ≤ l1Norm l := by
  unfold l1Norm
  apply List.sum_nonneg
  intro x hx
  rcases List.mem_map.mp hx with ⟨y, _, hy⟩
  rw [← hy]
  exact abs_nonneg y

theorem l1Norm_cons (x : ℚ) (l : List ℚ) : l1Norm (x :: l) = |x| + l1Norm l := by
  unfold l1Norm
  rw [List.map_cons, List.sum_cons]

theorem mapIdx_addAcc (v : List ℚ) :
    ∀ (a : List ℚ), a.length = v.length →
      v.mapIdx (fun i g => g + a.getD i 0) = List.zipWith (· + ·) v a := by
  induction v with
  | nil =>
    intro a ha
    rw [List.length_nil, List.length_eq_zero] at ha
    rw [ha]
    rfl
  | cons x xs ih =>
    intro a ha
    cases a with
    | nil => simp at ha
    | cons y ys =>
      rw [List.mapIdx_cons, List.zipWith_cons_cons]
      have htail : xs.mapIdx (fun i g => g + ys.getD i 0)
          = List.zipWith (· + ·) xs ys := ih ys (by simpa using ha)
      exact congrArg₂ _ rfl htail

theorem l1_zipWith_add_le (v : List ℚ) :
    ∀ a : List ℚ, l1Norm (List.zipWith (· + ·) v a) ≤ l1Norm v + l1Norm a := by
  induction v with
  | nil =>
    intro a
    have h1 : l1Norm (List.zipWith (· + ·) [] a) = 0 := by rfl
    rw [h1]
    have := l1Norm_nonneg a
    have h0 : l1Norm ([] : List ℚ) = 0 := rfl
    rw [h0, zero_add]
    exact this
  | cons x xs ih =>
    intro a
    cases a with
    | nil =>
      have h1 : List.zipWith (· + ·) (x :: xs) [] = [] := rfl
      rw [h1]
      have := l1Norm_nonneg (x :: xs)
      have h0 : l1Norm ([] : List ℚ) = 0 := rfl
      rw [h0, add_zero]
      exact this
    | cons y ys =>
      rw [List.zipWith_cons_cons, l1Norm_cons, l1Norm_cons, l1Norm_cons]
      have h1 := abs_add x y
      have h2 := ih ys
      calc |x + y| + l1Norm (List.zipWith (· + ·) xs ys)
          ≤ |x| + |y| + (l1Norm xs + l1Norm ys) := add_le_add h1 h2
        _ = |x| + l1Norm xs + (|y| + l1Norm ys) := by ring

theorem l1_zipWith_sub_le (w : List ℚ) :
    ∀ recon : List ℚ,
      (∀ j : ℕ, recon.getD j 0 = 0 ∨ recon.getD j 0 = w.getD j 0) →
      l1Norm (List.zipWith (fun g r => g - r) w recon) ≤ l1Norm w := by
  induction w with
  | nil =>
    intro recon _
    have h1 : List.zipWith (fun g r => g - r) [] recon = [] := rfl
    rw [h1]
  | cons x xs ih =>
    intro recon h
    cases recon with
    | nil =>
      have h1 : List.zipWith (fun g r => g - r) (x :: xs) [] = [] := rfl
      rw [h1]
      exact l1Norm_nonneg _
    | cons r rs =>
      rw [List.zipWith_cons_cons, l1Norm_cons, l1Norm_cons]
      have hhead : |x - r| ≤ |x| := by
        rcases h 0 with h0 | h0
        · have : r = 0 := by simpa using h0
          rw [this, sub_zero]
        · have : r = x := by simpa using h0
          rw [this, sub_self, abs_zero]
          exact abs_nonneg x
      have htail : l1Norm (List.zipWith (fun g r => g - r) xs rs) ≤ l1Norm xs :=
        ih rs (fun j => by simpa using h (j + 1))
      exact add_le_add hhead htail

/-- C9 (amended).  With error feedback enabled and a non-quantizing selection
method (`topk`, `random_k`, `quantization`), each `compress` call stores a
residual whose L1 magnitude is at most the L1 magnitude of the call's input
plus that of the previously stored residual (in particular the residual mass
stays bounded by the inputs fed in); the originally claimed monotone decrease
from the first to the second call is false, see the counterexample. -/
theorem compress_error_feedback_residual_bound (cfg : CompressionConfig)
    (acc : Option (List ℚ)) (randJ : ℕ → ℕ) (v : List ℚ)
    (_hv : cfg.isValid) (hef : cfg.errorFeedback = true)
    (hm1 : cfg.method ≠ CompressionMethod.none)
    (hm2 : cfg.method ≠ CompressionMethod.topk_quantized)
    (hacc : acc = Option.none ∨ ∃ a, acc = some a ∧ a.length = v.length) :
    ∃ acc2, (GradientCompressor.compress randJ ⟨cfg, acc⟩ v).2.errorAccumulator
        = some acc2 ∧
      l1Norm acc2 ≤ l1Norm v + l1Norm (acc.getD []) := by
  have hwlen : ((⟨cfg, acc⟩ : GradientCompressor).working v).length = v.length :=
    working_length _ v
  have hwbound : l1Norm ((⟨cfg, acc⟩ : GradientCompressor).working v)
      ≤ l1Norm v + l1Norm (acc.getD []) := by
    rcases hacc with h | ⟨a, ha, hlen⟩
    · rw [working_eq_of cfg acc v (Or.inr h), h]
      have h0 : l1Norm (([] : List ℚ)) = 0 := rfl
      rw [Option.getD_none, h0, add_zero]
    · unfold GradientCompressor.working
      dsimp only
      rw [hef, ha]
      dsimp only
      rw [mapIdx_addAcc v a hlen]
      rw [Option.getD_some]
      exact l1_zipWith_add_le v a
  unfold GradientCompressor.compress
  dsimp only
  rw [if_neg hm1, if_neg hm2, if_pos hef]
  refine ⟨_, rfl, ?_⟩
  have hrec : ∀ j : ℕ,
      (scatterZero v.length
        (GradientCompressor.selectIndices randJ ⟨cfg, acc⟩
          ((⟨cfg, acc⟩ : GradientCompressor).working v) (kOf v.length cfg.kRatio))
        (GradientCompressor.selectValues randJ ⟨cfg, acc⟩
          ((⟨cfg, acc⟩ : GradientCompressor).working v) (kOf v.length cfg.kRatio))).getD j 0
        = 0 ∨
      (scatterZero v.length
        (GradientCompressor.selectIndices randJ ⟨cfg, acc⟩
          ((⟨cfg, acc⟩ : GradientCompressor).working v) (kOf v.length cfg.kRatio))
        (GradientCompressor.selectValues randJ ⟨cfg, acc⟩
          ((⟨cfg, acc⟩ : GradientCompressor).working v) (kOf v.length cfg.kRatio))).getD j 0
        = ((⟨cfg, acc⟩ : GradientCompressor).working v).getD j 0 := by
    intro j
    by_cases hj : j ∈ GradientCompressor.selectIndices randJ ⟨cfg, acc⟩
        ((⟨cfg, acc⟩ : GradientCompressor).working v) (kOf v.length cfg.kRatio)
    · right
      refine scatterZero_getD_mem _ _ _ j _ ?_ ?_ hj ?_
      · rw [selectValues_length_eq]
      · intro iv hiv h1
        have := selectPairs_consistent randJ _ _ _ iv hiv
        rw [← h1]
        exact this
      · rw [← hwlen]
        exact selectIndices_lt randJ _ _ _ j hj
    · left
      exact scatterZero_getD_not_mem _ _ _ j hj
  calc l1Norm (List.zipWith (fun g r => g - r)
        ((⟨cfg, acc⟩ : GradientCompressor).working v) _)
      ≤ l1Norm ((⟨cfg, acc⟩ : GradientCompressor).working v) :=
        l1_zipWith_sub_le _ _ hrec
    _ ≤ l1Norm v + l1Norm (acc.getD []) := hwbound

/-- C9 counterexample: top-k, ratio 1/4, error feedback on, constant input
`[1, 1, 1, 1]` compressed twice on the same engine.  The first call stores
the residual `[0, 1, 1, 1]`, the second `[1, 0, 2, 2]`: the second call's
residual magnitude strictly exceeds the first call's under the L1, sup and
sum-of-squares readings of "magnitude" alike. -/
theorem compress_error_feedback_counterexample :
    (⟨CompressionMethod.topk, 1/4, 8, true⟩ : CompressionConfig).isValid ∧
    (GradientCompressor.compress (fun _ => 0)
        ⟨⟨CompressionMethod.topk, 1/4, 8, true⟩, Option.none⟩
        [1, 1, 1, 1]).2.errorAccumulator = some [0, 1, 1, 1] ∧
    (GradientCompressor.compress (fun _ => 0)
        ((GradientCompressor.compress (fun _ => 0)
          ⟨⟨CompressionMethod.topk, 1/4, 8, true⟩, Option.none⟩
          [1, 1, 1, 1]).2) [1, 1, 1, 1]).2.errorAccumulator = some [1, 0, 2, 2] ∧
    ¬ (l1Norm [1, 0, 2, 2] ≤ l1Norm [0, 1, 1, 1]) ∧
    ¬ (supNorm [1, 0, 2, 2] ≤ supNorm [0, 1, 1, 1]) ∧
    ¬ (sumSq [1, 0, 2, 2] ≤ sumSq [0, 1, 1, 1]) := by
  refine ⟨⟨by norm_num, by norm_num, by norm_num⟩, ?_, ?_, ?_, ?_, ?_⟩
  · norm_num +decide [GradientCompressor.compress, GradientCompressor.working, kOf,
      GradientCompressor.selectIndices, GradientCompressor.selectValues, topKSorted,
      List.insertionSort, List.orderedInsert, scatterZero, List.enum, List.enumFrom,
      List.replicate, List.set, List.zipWith]
  · norm_num +decide [GradientCompressor.compress, GradientCompressor.working, kOf,
      GradientCompressor.selectIndices, GradientCompressor.selectValues, topKSorted,
      List.insertionSort, List.orderedInsert, scatterZero, List.enum, List.enumFrom,
      List.replicate, List.set, List.zipWith, List.mapIdx, List.mapIdx.go]
  · norm_num [l1Norm, abs_of_nonneg]
  · norm_num [supNorm, listMax, abs_of_nonneg]
  · norm_num [sumSq]

/-- C9 witness: the amended per-call L1 bound applied at the concrete second
call of the counterexample scenario (input `[1, 1, 1, 1]`, stored residual
`[0, 1, 1, 1]`). -/
theorem compress_error_feedback_residual_bound_witness :
    ∃ acc2, (GradientCompressor.compress (fun _ => 0)
        ⟨⟨CompressionMethod.topk, 1/4, 8, true⟩, some [0, 1, 1, 1]⟩
        [1, 1, 1, 1]).2.errorAccumulator = some acc2 ∧
      l1Norm acc2 ≤ l1Norm [1, 1, 1, 1]
        + l1Norm ((some [0, 1, 1, 1] : Option (List ℚ)).getD []) :=
  compress_error_feedback_residual_bound ⟨CompressionMethod.topk, 1/4, 8, true⟩
    (some [0, 1, 1, 1]) (fun _ => 0) [1, 1, 1, 1]
    ⟨by norm_num, by norm_num, by norm_num⟩ rfl (by decide) (by decide)
    (Or.inr ⟨[0, 1, 1, 1], rfl, by decide⟩)

/-! ## Aggregation algebra (C4) -/

theorem addAt_length (arr : List ℚ) (i : ℕ) (v : ℚ) :
    (addAt arr i v).length = arr.length := by
  unfold addAt
  exact List.length_set ..

theorem foldl_addAt_length (pairs : List (ℕ × ℚ)) (f : ℕ × ℚ → ℚ) :
    ∀ arr : List ℚ,
      (pairs.foldl (fun ar iv => addAt ar iv.1 (f iv)) arr).length = arr.length := by
  induction pairs with
  | nil => intro arr; rfl
  | cons p rest ih =>
    intro arr
    rw [List.foldl_cons, ih, addAt_length]

theorem addAt_getD (arr : List ℚ) (i : ℕ) (v : ℚ) (j : ℕ) (hj : j < arr.length) :
    (addAt arr i v).getD j 0 = arr.getD j 0 + (if i = j then v else 0) := by
  unfold addAt
  by_cases h : i = j
  · subst h
    simp [List.getD_eq_getElem?_getD, List.getElem?_set_self, hj]
  · simp [List.getD_eq_getElem?_getD, List.getElem?_set_ne h, h]

theorem foldl_addAt_getD (f : ℕ × ℚ → ℚ) (pairs : List (ℕ × ℚ)) :
    ∀ (arr : List ℚ) (j : ℕ), j < arr.length →
      (pairs.foldl (fun ar iv => addAt ar iv.1 (f iv)) arr).getD j 0
        = arr.getD j 0 + ((pairs.filter (fun iv => iv.1 = j)).map f).sum := by
  induction pairs with
  | nil => intro arr j _; simp
  | cons p rest ih =>
    intro arr j hj
    rw [List.foldl_cons, ih _ j (by rw [addAt_length]; exact hj),
      addAt_getD arr p.1 (f p) j hj]
    by_cases h : p.1 = j
    · rw [List.filter_cons_of_pos (by simpa using h), List.map_cons, List.sum_cons,
        if_pos h]
      ring
    · rw [List.filter_cons_of_neg (by simpa using h), if_neg h]
      ring

theorem filter_zip_not_mem (ind : List ℕ) (j : ℕ) (hj : j ∉ ind) :
    ∀ vals : List ℚ, (ind.zip vals).filter (fun iv => iv.1 = j) = [] := by
  induction ind with
  | nil => intro vals; rfl
  | cons i ind' ih =>
    intro vals
    cases vals with
    | nil => rfl
    | cons v vals' =>
      rw [List.zip_cons_cons, List.filter_cons_of_neg, ih (fun h => hj (List.mem_cons_of_mem _ h)) vals']
      simp only [decide_eq_true_eq]
      intro h
      exact hj (by rw [← h]; exact List.mem_cons_self _ _)

theorem filter_zip_nodup (ind : List ℕ) :
    ∀ (vals : List ℚ) (j : ℕ), ind.Nodup → j ∈ ind → ind.length ≤ vals.length →
      ∃ vj, ((ind.zip vals).filter (fun iv => iv.1 = j)) = [(j, vj)] ∧
        (∀ iv ∈ ind.zip vals, iv.1 = j → iv.2 = vj) := by
  induction ind with
  | nil => intro vals j _ hj; simp at hj
  | cons i ind' ih =>
    intro vals j hnd hj hlen
    cases vals with
    | nil => simp at hlen
    | cons v vals' =>
      rw [List.zip_cons_cons]
      by_cases h : i = j
      · subst h
        have hnotin : i ∉ ind' := (List.nodup_cons.mp hnd).1
        refine ⟨v, ?_, ?_⟩
        · rw [List.filter_cons_of_pos (by simp), filter_zip_not_mem ind' i hnotin vals']
        · intro iv hiv h1
          rcases List.mem_cons.mp hiv with h2 | h2
          · rw [h2]
          · have := List.of_mem_zip (by rw [← @Prod.mk.eta _ _ iv] at h2; exact h2)
            rw [h1] at this
            exact absurd this.1 hnotin
      · have hj' : j ∈ ind' := by
          rcases List.mem_cons.mp hj with h1 | h1
          · exact absurd h1.symm h
          · exact h1
        rcases ih vals' j (List.nodup_cons.mp hnd).2 hj' (by simpa using hlen)
          with ⟨vj, hfil, hall⟩
        refine ⟨vj, ?_, ?_⟩
        · rw [List.filter_cons_of_neg (by simpa using h), hfil]
        · intro iv hiv h1
          rcases List.mem_cons.mp hiv with h2 | h2
          · rw [h2] at h1
            exact absurd h1 h
          · exact hall iv h2 h1

theorem inner_fold_getD (ind : List ℕ) (vals : List ℚ) (w : ℚ) (arr : List ℚ)
    (j : ℕ) (hj : j < arr.length) (hnd : ind.Nodup)
    (hlen : ind.length ≤ vals.length) :
    ((ind.zip vals).foldl (fun ar iv => addAt ar iv.1 (iv.2 * w)) arr).getD j 0
      = arr.getD j 0 + (scatterZero arr.length ind vals).getD j 0 * w := by
  rw [foldl_addAt_getD (fun iv => iv.2 * w) _ arr j hj]
  by_cases hmem : j ∈ ind
  · obtain ⟨vj, hfil, hall⟩ := filter_zip_nodup ind vals j hnd hmem hlen
    rw [hfil, scatterZero_getD_mem arr.length ind vals j vj hlen hall hmem hj]
    simp
  · rw [filter_zip_not_mem ind j hmem vals, scatterZero_getD_not_mem _ _ _ j hmem]
    simp

theorem fedavg_fold_getD (pending : List (String × (CompressedGradient × ℚ)))
    (total : ℚ) (m j : ℕ) (hj : j < m)
    (hwf : ∀ kv ∈ pending, kv.2.1.indices.Nodup ∧
      kv.2.1.indices.length ≤ kv.2.1.values.length) :
    ∀ arr : List ℚ, arr.length = m →
    (pending.foldl
      (fun agg kv =>
        (kv.2.1.indices.zip kv.2.1.values).foldl
          (fun arr2 iv => addAt arr2 iv.1 (iv.2 * (kv.2.2 / total))) agg)
      arr).getD j 0
      = arr.getD j 0 + (pending.map (fun kv =>
          (scatterZero m kv.2.1.indices kv.2.1.values).getD j 0
            * (kv.2.2 / total))).sum := by
  induction pending with
  | nil => intro arr _; simp
  | cons kv rest ih =>
    intro arr harr
    rw [List.foldl_cons]
    have hkv := hwf kv (List.mem_cons_self _ _)
    have hlen2 : ((kv.2.1.indices.zip kv.2.1.values).foldl
        (fun ar iv => addAt ar iv.1 (iv.2 * (kv.2.2 / total))) arr).length = m := by
      rw [foldl_addAt_length]
      exact harr
    rw [ih (fun kv2 hm => hwf kv2 (List.mem_cons_of_mem _ hm)) _ hlen2]
    rw [inner_fold_getD kv.2.1.indices kv.2.1.values (kv.2.2 / total) arr j
      (by rw [harr]; exact hj) hkv.1 hkv.2]
    rw [List.map_cons, List.sum_cons, harr]
    ring

/-- C4.  For every non-empty pending set on an aggregator with strategy
`fedavg` or `weighted_avg`, a configured model size `m`, positive sample
counts, and well-formed compressed contributions (duplicate-free in-range
index lists no longer than their value lists), `aggregate()` returns a dense
vector of length `m` whose value at each index `j` is the sum over
contributions of the contribution's zero-filled reconstruction at `j`
multiplied by its `sampleCount / Σ sampleCount`. -/
theorem aggregate_fedavg_weighted_sum (a : GradientAggregator) (m : ℕ)
    (hstrat : a.strategy = AggregationStrategy.fedavg ∨
      a.strategy = AggregationStrategy.weighted_avg)
    (hms : a.modelSize = some m)
    (hne : a.pendingGradients ≠ [])
    (_hpos : ∀ kv ∈ a.pendingGradients, 0 < kv.2.2)
    (hwf : ∀ kv ∈ a.pendingGradients, kv.2.1.indices.Nodup ∧
      (∀ i ∈ kv.2.1.indices, i < m) ∧
      kv.2.1.indices.length ≤ kv.2.1.values.length) :
    ∃ result st2, a.aggregate = Except.ok (result, st2) ∧ result.length = m ∧
      ∀ j, j < m → result.getD j 0
        = (a.pendingGradients.map (fun kv =>
            (scatterZero m kv.2.1.indices kv.2.1.values).getD j 0
              * (kv.2.2 / (a.pendingGradients.map (fun kv2 => kv2.2.2)).sum))).sum := by
  have hfed : a.fedAvg m = a.pendingGradients.foldl
      (fun agg kv =>
        (kv.2.1.indices.zip kv.2.1.values).foldl
          (fun arr2 iv => addAt arr2 iv.1
            (iv.2 * (kv.2.2 / (a.pendingGradients.map (fun kv2 => kv2.2.2)).sum))) agg)
      (List.replicate m 0) := rfl
  have hflen : (a.fedAvg m).length = m := by
    rw [hfed]
    have : ∀ (pending : List (String × (CompressedGradient × ℚ))) (arr : List ℚ),
        (pending.foldl
          (fun agg kv =>
            (kv.2.1.indices.zip kv.2.1.values).foldl
              (fun arr2 iv => addAt arr2 iv.1
                (iv.2 * (kv.2.2 / (a.pendingGradients.map (fun kv2 => kv2.2.2)).sum))) agg)
          arr).length = arr.length := by
      intro pending
      induction pending with
      | nil => intro arr; rfl
      | cons kv rest ih =>
        intro arr
        rw [List.foldl_cons, ih, foldl_addAt_length]
    rw [this]
    exact List.length_replicate ..
  have hfval : ∀ j, j < m → (a.fedAvg m).getD j 0
      = (a.pendingGradients.map (fun kv =>
          (scatterZero m kv.2.1.indices kv.2.1.values).getD j 0
            * (kv.2.2 / (a.pendingGradients.map (fun kv2 => kv2.2.2)).sum))).sum := by
    intro j hj
    rw [hfed, fedavg_fold_getD a.pendingGradients _ m j hj
      (fun kv hm => ⟨(hwf kv hm).1, (hwf kv hm).2.2⟩) _ (List.length_replicate ..)]
    have : (List.replicate m (0 : ℚ)).getD j 0 = 0 := by
      simp [List.getD_eq_getElem?_getD, List.getElem?_replicate, hj]
    rw [this, zero_add]
  unfold GradientAggregator.aggregate
  rcases hpl : a.pendingGradients with _ | ⟨fst, rest⟩
  · exact absurd hpl hne
  · rw [hpl] at hfval
    have hms2 : a.modelSize.getD fst.2.1.originalSize = m := by rw [hms]; rfl
    rcases hstrat with hs | hs
    · refine ⟨a.fedAvg m,
        ⟨a.strategy, a.minParticipants, a.modelSize, [], a.round + 1⟩, ?_, hflen, hfval⟩
      dsimp only
      rw [hms2, if_pos hs]
    · refine ⟨a.fedAvg m,
        ⟨a.strategy, a.minParticipants, a.modelSize, [], a.round + 1⟩, ?_, hflen, hfval⟩
      dsimp only
      rw [hms2, if_neg (by rw [hs]; decide), if_pos hs]

/-- C4 witness: three contributions with sample counts (4, 3, 3) under
`fedavg` on model size 3, as in the specification's example scenario. -/
theorem aggregate_fedavg_weighted_sum_witness :
    ∃ result st2,
      (⟨AggregationStrategy.fedavg, 3, some 3,
        [("a", ⟨[0, 1], [1, 2], [3], 3, 16, 1, Option.none⟩, 4),
         ("b", ⟨[1, 2], [3, 4], [3], 3, 16, 1, Option.none⟩, 3),
         ("c", ⟨[0], [5], [3], 3, 8, 1, Option.none⟩, 3)], 0⟩ :
          GradientAggregator).aggregate = Except.ok (result, st2) ∧
      result.length = 3 ∧
      ∀ j, j < 3 → result.getD j 0
        = (([("a", ⟨[0, 1], [1, 2], [3], 3, 16, 1, Option.none⟩, 4),
             ("b", ⟨[1, 2], [3, 4], [3], 3, 16, 1, Option.none⟩, 3),
             ("c", ⟨[0], [5], [3], 3, 8, 1, Option.none⟩, 3)] :
              JsMap String (CompressedGradient × ℚ)).map (fun kv =>
            (scatterZero 3 kv.2.1.indices kv.2.1.values).getD j 0
              * (kv.2.2 / (([("a", ⟨[0, 1], [1, 2], [3], 3, 16, 1, Option.none⟩, 4),
                  ("b", ⟨[1, 2], [3, 4], [3], 3, 16, 1, Option.none⟩, 3),
                  ("c", ⟨[0], [5], [3], 3, 8, 1, Option.none⟩, 3)] :
                   JsMap String (CompressedGradient × ℚ)).map
                    (fun kv2 => kv2.2.2)).sum))).sum :=
  aggregate_fedavg_weighted_sum
    ⟨AggregationStrategy.fedavg, 3, some 3,
      [("a", ⟨[0, 1], [1, 2], [3], 3, 16, 1, Option.none⟩, 4),
       ("b", ⟨[1, 2], [3, 4], [3], 3, 16, 1, Option.none⟩, 3),
       ("c", ⟨[0], [5], [3], 3, 8, 1, Option.none⟩, 3)], 0⟩ 3
    (Or.inl rfl) rfl (by decide) (by decide) (by decide)

/-! ## Model partitioning (core source file): `PartitionOptimizer` -/

/-- Where to place a layer (source enum `PlacementLocation`). -/
inductive PlacementLocation
  | ground
  | orbital
  | split
deriving DecidableEq

/-- Objective for partition optimization (source enum
`OptimizationObjective`). -/
inductive OptimizationObjective
  | minimize_latency
  | minimize_bandwidth
  | balance
  | maximize_throughput
deriving DecidableEq

/-- Profile of a single layer (source interface `LayerProfile`); the fields
`layerType` and `activationMemory`, never read by the partitioning code, are
omitted. -/
structure LayerProfile where
  name : String
  params : ℚ
  flops : ℚ
  inputSize : ℚ
  outputSize : ℚ
deriving DecidableEq

/-- Profile of a model (source class `ModelProfile`). -/
structure ModelProfile where
  layers : List LayerProfile
  name : String
deriving DecidableEq

/-- Placement decision for a single layer (source `LayerPlacement`; the
optional unused `nodeId` is omitted). -/
structure LayerPlacement where
  layerName : String
  location : PlacementLocation
  estimatedLatencyMs : ℚ
  dataTransferBytes : ℚ
deriving DecidableEq

/-- Complete partitioning plan (source `PartitionPlan`). -/
structure PartitionPlan where
  modelName : String
  placements : List LayerPlacement
  totalLatencyMs : ℚ
  groundOrbitalTransfers : ℕ
  totalTransferBytes : ℚ
  objective : OptimizationObjective
deriving DecidableEq

/-- The speed of light in km/s used by the source (`299792.458`). -/
def speedOfLightKmS : ℚ := 299792458 / 1000

/-- Ground–orbit latency estimator (source class `LatencyEstimator`). -/
structure LatencyEstimator where
  orbitAltitudeKm : ℚ
  uplinkBandwidthMbps : ℚ
  downlinkBandwidthMbps : ℚ
  processingOverheadMs : ℚ
deriving DecidableEq

/-- Source getter `propagationDelayMs`. -/
def LatencyEstimator.propagationDelayMs (e : LatencyEstimator) : ℚ :=
  e.orbitAltitudeKm / speedOfLightKmS * 1000

/-- Source `estimateTransferTimeMs`. -/
def LatencyEstimator.estimateTransferTimeMs (e : LatencyEstimator) (bytesSize : ℚ)
    (isUplink : Bool) : ℚ :=
  let bandwidth := if isUplink then e.uplinkBandwidthMbps else e.downlinkBandwidthMbps
  let bits := bytesSize * 8
  bits / (bandwidth * 1000000) * 1000

/-- Source class `PartitionOptimizer` (configuration part). -/
structure PartitionOptimizer where
  groundComputeTflops : ℚ
  orbitalComputeTflops : ℚ
  latencyEstimator : LatencyEstimator
deriving DecidableEq

/-- Source private `createPlan`: place layers `[0, splitIdx)` on the ground
pool and the rest on the orbital pool; at the boundary layer (when the split
is interior) add the uplink transfer time and propagation delay once and
record the transferred bytes. -/
def PartitionOptimizer.createPlan (po : PartitionOptimizer) (model : ModelProfile)
    (splitIdx : ℕ) (objective : OptimizationObjective) : PartitionPlan :=
  let n := model.layers.length
  let r := model.layers.enum.foldl
    (fun (acc : List LayerPlacement × ℚ × ℚ × ℕ) (p : ℕ × LayerProfile) =>
      let location :=
        if p.1 < splitIdx then PlacementLocation.ground else PlacementLocation.orbital
      let computeTflops :=
        if location = PlacementLocation.ground then po.groundComputeTflops
        else po.orbitalComputeTflops
      let baseLatencyMs := p.2.flops / (computeTflops * 1000000000000) * 1000
      if p.1 = splitIdx ∧ 0 < splitIdx ∧ splitIdx < n then
        let transferBytes := p.2.inputSize
        let transferLatency :=
          po.latencyEstimator.estimateTransferTimeMs transferBytes true
        let layerLatencyMs := baseLatencyMs + transferLatency
          + po.latencyEstimator.propagationDelayMs
        (acc.1 ++ [⟨p.2.name, location, layerLatencyMs, transferBytes⟩],
          acc.2.1 + layerLatencyMs, acc.2.2.1 + transferBytes, acc.2.2.2 + 1)
      else
        (acc.1 ++ [⟨p.2.name, location, baseLatencyMs, 0⟩],
          acc.2.1 + baseLatencyMs, acc.2.2.1, acc.2.2.2))
    ([], 0, 0, 0)
  ⟨model.name, r.1, r.2.1, r.2.2.2, r.2.2.1, objective⟩

/-- Source private `optimizeLatency`: brute-force every split index
`0..numLayers`, keeping the plan with the strictly smallest total latency
(`Option.none` models the initial `bestLatency = Infinity`). -/
def latStep (po : PartitionOptimizer) (model : ModelProfile)
    (objective : OptimizationObjective) (best : Option PartitionPlan)
    (splitIdx : ℕ) : Option PartitionPlan :=
  let plan := po.createPlan model splitIdx objective
  match best with
  | Option.none => some plan
  | some b => if plan.totalLatencyMs < b.totalLatencyMs then some plan else some b

def PartitionOptimizer.optimizeLatency (po : PartitionOptimizer) (model : ModelProfile)
    (objective : OptimizationObjective) : PartitionPlan :=
  ((List.range (model.layers.length + 1)).foldl (latStep po model objective)
    Option.none).getD (po.createPlan model 0 objective)

/-- Source private `optimizeBandwidth`: split right after the layer with the
globally smallest output size (`Option.none` models `minTransferSize =
Infinity`; the recorded index starts at 0). -/
def PartitionOptimizer.optimizeBandwidth (po : PartitionOptimizer) (model : ModelProfile)
    (objective : OptimizationObjective) : PartitionPlan :=
  let r := model.layers.enum.foldl
    (fun (acc : ℕ × Option ℚ) (p : ℕ × LayerProfile) =>
      match acc.2 with
      | Option.none => (p.1 + 1, some p.2.outputSize)
      | some mn => if p.2.outputSize < mn then (p.1 + 1, some p.2.outputSize) else acc)
    (0, Option.none)
  po.createPlan model r.1 objective

/-- Source private `optimizeBalanced`: the first split index at which the
cumulative FLOPs reach the ground pool's proportional share (the `Bool`
records the source's loop `break`). -/
def PartitionOptimizer.optimizeBalanced (po : PartitionOptimizer) (model : ModelProfile)
    (objective : OptimizationObjective) : PartitionPlan :=
  let totalFlops := (model.layers.map (fun l => l.flops)).sum
  let targetGroundFlops := totalFlops * po.groundComputeTflops
    / (po.groundComputeTflops + po.orbitalComputeTflops)
  let r := model.layers.enum.foldl
    (fun (acc : ℚ × ℕ × Bool) (p : ℕ × LayerProfile) =>
      if acc.2.2 then acc
      else
        let c := acc.1 + p.2.flops
        if targetGroundFlops ≤ c then (c, p.1 + 1, true) else (c, acc.2.1, false))
    (0, 0, false)
  po.createPlan model r.2.1 objective

/-- Source `optimize`: dispatch on the objective; `balance` and
`maximize_throughput` both fall through to `optimizeBalanced`. -/
def PartitionOptimizer.optimize (po : PartitionOptimizer) (model : ModelProfile)
    (objective : OptimizationObjective) : PartitionPlan :=
  if objective = OptimizationObjective.minimize_latency then
    po.optimizeLatency model objective
  else if objective = OptimizationObjective.minimize_bandwidth then
    po.optimizeBandwidth model objective
  else
    po.optimizeBalanced model objective

theorem latStep_isSome (po : PartitionOptimizer) (model : ModelProfile)
    (objective : OptimizationObjective) (best : Option PartitionPlan) (s : ℕ) :
    (latStep po model objective best s).isSome := by
  unfold latStep
  cases best with
  | none => rfl
  | some b =>
    dsimp only
    split <;> rfl

theorem foldl_latStep_le (po : PartitionOptimizer) (model : ModelProfile)
    (objective : OptimizationObjective) :
    ∀ (xs : List ℕ) (init : Option PartitionPlan) (b : PartitionPlan),
      xs.foldl (latStep po model objective) init = some b →
      (∀ a, init = some a → b.totalLatencyMs ≤ a.totalLatencyMs) ∧
      (∀ s ∈ xs, b.totalLatencyMs
        ≤ (po.createPlan model s objective).totalLatencyMs) := by
  intro xs
  induction xs with
  | nil =>
    intro init b hfold
    refine ⟨?_, ?_⟩
    · intro a ha
      rw [List.foldl_nil, ha] at hfold
      rw [Option.some.inj hfold]
    · intro s hs
      simp at hs
  | cons x rest ih =>
    intro init b hfold
    rw [List.foldl_cons] at hfold
    have hstep := ih (latStep po model objective init x) b hfold
    have hx : b.totalLatencyMs ≤ (po.createPlan model x objective).totalLatencyMs := by
      rcases hinit : init with _ | a
      · have : latStep po model objective Option.none x
            = some (po.createPlan model x objective) := rfl
        rw [hinit, this] at hfold
        have := (ih _ b hfold).1 _ rfl
        exact this
      · rw [hinit] at hfold
        unfold latStep at hfold
        dsimp only at hfold
        by_cases hlt : (po.createPlan model x objective).totalLatencyMs
            < a.totalLatencyMs
        · rw [if_pos hlt] at hfold
          exact (ih _ b hfold).1 _ rfl
        · rw [if_neg hlt] at hfold
          have hba := (ih _ b hfold).1 _ rfl
          exact le_trans hba (not_lt.mp hlt)
    refine ⟨?_, ?_⟩
    · intro a ha
      rcases hinit : init with _ | a2
      · rw [hinit] at ha
        exact absurd ha (by simp)
      · rw [hinit] at ha
        have ha2 : a2 = a := Option.some.inj ha
        rw [hinit] at hfold
        unfold latStep at hfold
        dsimp only at hfold
        by_cases hlt : (po.createPlan model x objective).totalLatencyMs
            < a2.totalLatencyMs
        · rw [if_pos hlt] at hfold
          have := (ih _ b hfold).1 _ rfl
          rw [← ha2]
          exact le_trans this (le_of_lt hlt)
        · rw [if_neg hlt] at hfold
          have := (ih _ b hfold).1 _ rfl
          rw [← ha2]
          exact this
    · intro s hs
      rcases List.mem_cons.mp hs with h1 | h1
      · rw [h1]
        exact hx
      · exact hstep.2 s h1

theorem foldl_latStep_isSome (po : PartitionOptimizer) (model : ModelProfile)
    (objective : OptimizationObjective) :
    ∀ (xs : List ℕ) (init : Option PartitionPlan), init.isSome ∨ xs ≠ [] →
      (xs.foldl (latStep po model objective) init).isSome := by
  intro xs
  induction xs with
  | nil =>
    intro init h
    rcases h with h | h
    · exact h
    · exact absurd rfl h
  | cons x rest ih =>
    intro init _
    rw [List.foldl_cons]
    exact ih _ (Or.inl (latStep_isSome po model objective init x))

/-- C5.  For every model profile and every pair of positive ground/orbital
pool capacities (and a positive uplink bandwidth), the plan returned by
`optimize` with objective `minimize_latency` has a `totalLatencyMs` no
larger than the total latency of the plan produced at every split index
`s` in `0..numLayers` for the same model and pools. -/
theorem optimize_minimize_latency_optimal (po : PartitionOptimizer)
    (model : ModelProfile) (_hg : 0 < po.groundComputeTflops)
    (_ho : 0 < po.orbitalComputeTflops)
    (_hu : 0 < po.latencyEstimator.uplinkBandwidthMbps) :
    ∀ s, s ≤ model.layers.length →
      (po.optimize model OptimizationObjective.minimize_latency).totalLatencyMs
        ≤ (po.createPlan model s
            OptimizationObjective.minimize_latency).totalLatencyMs := by
  intro s hs
  unfold PartitionOptimizer.optimize
  rw [if_pos rfl]
  unfold PartitionOptimizer.optimizeLatency
  obtain ⟨b, hb⟩ := Option.isSome_iff_exists.mp
    (foldl_latStep_isSome po model OptimizationObjective.minimize_latency
      (List.range (model.layers.length + 1)) Option.none (Or.inr (by simp)))
  rw [hb, Option.getD_some]
  exact (foldl_latStep_le po model OptimizationObjective.minimize_latency _ _ b hb).2
    s (List.mem_range.mpr (Nat.lt_succ_of_le hs))

/-- C5 witness: a concrete two-layer model on pools of 100 and 10 TFLOPS;
the minimize-latency plan is no worse than the split at index 1. -/
theorem optimize_minimize_latency_optimal_witness :
    ((0 : ℚ) < 100 ∧ (0 : ℚ) < 10 ∧ (0 : ℚ) < 100 ∧ 1 ≤ 2) ∧
    ((⟨100, 10, ⟨550, 100, 200, 5⟩⟩ : PartitionOptimizer).optimize
        ⟨[⟨"emb", 10, 2000, 64, 512⟩, ⟨"out", 20, 9000, 512, 128⟩], "m"⟩
        OptimizationObjective.minimize_latency).totalLatencyMs
      ≤ ((⟨100, 10, ⟨550, 100, 200, 5⟩⟩ : PartitionOptimizer).createPlan
        ⟨[⟨"emb", 10, 2000, 64, 512⟩, ⟨"out", 20, 9000, 512, 128⟩], "m"⟩ 1
        OptimizationObjective.minimize_latency).totalLatencyMs := by
  refine ⟨⟨by norm_num, by norm_num, by norm_num, by norm_num⟩, ?_⟩
  exact optimize_minimize_latency_optimal ⟨100, 10, ⟨550, 100, 200, 5⟩⟩
    ⟨[⟨"emb", 10, 2000, 64, 512⟩, ⟨"out", 20, 9000, 512, 128⟩], "m"⟩
    (by norm_num) (by norm_num) (by norm_num) 1 (by norm_num)

/-- C10.  For every optimizer configuration and model profile, `optimize`
with objective `maximize_throughput` returns exactly the plan produced by
the `balance` objective — identical placements, per-layer latencies, total
latency and transfer bytes — differing only in the recorded `objective`
field.  (In the source, `maximize_throughput` falls through `optimize`'s
`else` branch into `optimizeBalanced`.) -/
theorem optimize_throughput_eq_balance (po : PartitionOptimizer)
    (model : ModelProfile) :
    po.optimize model OptimizationObjective.maximize_throughput
      = { po.optimize model OptimizationObjective.balance with
          objective := OptimizationObjective.maximize_throughput } := rfl

/-! ## Contact scheduler (core source file): priority queue and `optimize` -/

/-- Priority level (source enum `Priority`: CRITICAL=0 … LOW=3). -/
inductive Priority
  | critical
  | high
  | normal
  | low
deriving DecidableEq

/-- The numeric value of a priority as in the source enum. -/
def Priority.toNat : Priority → ℕ
  | .critical => 0
  | .high => 1
  | .normal => 2
  | .low => 3

/-- Ground-station configuration (source interface `GroundStation`). -/
structure GroundStation where
  name : String
  latitude : ℚ
  longitude : ℚ
  elevationM : ℚ
  bandwidthMbps : ℚ
  minElevationDeg : ℚ
deriving DecidableEq

/-- A contact window (source interface `ContactWindow`; `Date`s are their
millisecond timestamps). -/
structure ContactWindow where
  station : GroundStation
  startTime : ℚ
  endTime : ℚ
  maxElevationDeg : ℚ
  availableBandwidthMbps : ℚ
deriving DecidableEq

/-- Source `getContactWindowDurationSeconds`. -/
def getContactWindowDurationSeconds (w : ContactWindow) : ℚ :=
  (w.endTime - w.startTime) / 1000

/-- Source `getContactWindowCapacityMb`. -/
def getContactWindowCapacityMb (w : ContactWindow) : ℚ :=
  w.availableBandwidthMbps * getContactWindowDurationSeconds w / 8

/-- The byte capacity `optimize` computes for a window:
`Math.floor(capacityMb * 1024 * 1024)`. -/
def windowCapacityBytes (w : ContactWindow) : ℚ :=
  (⌊getContactWindowCapacityMb w * 1024 * 1024⌋ : ℚ)

/-- A queued sync task (source interface `SyncTask`). -/
structure SyncTask where
  priority : Priority
  deadline : ℚ
  nodeId : String
  dataSizeBytes : ℚ
  taskId : String
  description : String
  createdAt : ℚ
deriving DecidableEq

/-- The priority queue's comparator as a relation (`cmp a b ≤ 0` for the
source's `(priority ascending, deadline ascending)` comparator). -/
def taskLE (a b : SyncTask) : Prop :=
  a.priority.toNat < b.priority.toNat ∨
    (a.priority.toNat = b.priority.toNat ∧ a.deadline ≤ b.deadline)

instance : DecidableRel taskLE := by
  intro a b
  unfold taskLE
  infer_instance

/-- The greedy pass of `getTasksForWindow`: walk the sorted candidates and
take every task whose size fits in the remaining capacity. -/
def greedyFit : List SyncTask → ℚ → List SyncTask
  | [], _ => []
  | t :: rest, remaining =>
    if t.dataSizeBytes ≤ remaining then t :: greedyFit rest (remaining - t.dataSizeBytes)
    else greedyFit rest remaining

/-- Remove the first task with the given id (source `findIndex` + `splice`). -/
def removeFirstById (heap : List SyncTask) (taskId : String) : List SyncTask :=
  heap.eraseP (fun t => t.taskId = taskId)

/-- Source `PriorityQueue.getTasksForWindow`: sort a copy of the heap by
(priority, deadline), greedily select every task that fits the remaining
capacity, remove the selected tasks from the heap; returns the selection
and the new heap. -/
def getTasksForWindow (heap : List SyncTask) (capacityBytes : ℚ) :
    List SyncTask × List SyncTask :=
  let candidates := heap.insertionSort taskLE
  let tasks := greedyFit candidates capacityBytes
  (tasks, tasks.foldl (fun h t => removeFirstById h t.taskId) heap)

/-- Source `SyncScheduler.optimize`, parametrised by the window list the
source obtains from `getContactWindows` (whose pass-count heuristics use
`π` and `Math.sqrt` and are abstracted here): allocate each window's byte
capacity greedily from the pending queue; windows that receive no task are
not recorded. -/
def schedStep (acc : List (ContactWindow × List SyncTask) × List SyncTask)
    (w : ContactWindow) : List (ContactWindow × List SyncTask) × List SyncTask :=
  let r := getTasksForWindow acc.2 (windowCapacityBytes w)
  if r.1 = [] then (acc.1, r.2)
  else (acc.1 ++ [(w, r.1)], r.2)

def SyncScheduler.optimizeOn (windows : List ContactWindow) (queue : List SyncTask) :
    List (ContactWindow × List SyncTask) × List SyncTask :=
  windows.foldl schedStep ([], queue)

theorem greedyFit_sum : ∀ (cands : List SyncTask) (rem : ℚ), 0 ≤ rem →
    ((greedyFit cands rem).map (fun t => t.dataSizeBytes)).sum ≤ rem := by
  intro cands
  induction cands with
  | nil => intro rem h; simpa using h
  | cons t rest ih =>
    intro rem h
    unfold greedyFit
    by_cases hfit : t.dataSizeBytes ≤ rem
    · rw [if_pos hfit, List.map_cons, List.sum_cons]
      have h2 : 0 ≤ rem - t.dataSizeBytes := by linarith
      have := ih (rem - t.dataSizeBytes) h2
      linarith
    · rw [if_neg hfit]
      exact ih rem h

theorem greedyFit_subset : ∀ (cands : List SyncTask) (rem : ℚ) (t : SyncTask),
    t ∈ greedyFit cands rem → t ∈ cands := by
  intro cands
  induction cands with
  | nil => intro rem t h; exact absurd h (by simp [greedyFit])
  | cons c rest ih =>
    intro rem t h
    unfold greedyFit at h
    by_cases hfit : c.dataSizeBytes ≤ rem
    · rw [if_pos hfit] at h
      rcases List.mem_cons.mp h with h1 | h1
      · rw [h1]; exact List.mem_cons_self _ _
      · exact List.mem_cons_of_mem _ (ih _ t h1)
    · rw [if_neg hfit] at h
      exact List.mem_cons_of_mem _ (ih _ t h)

theorem mem_removeFirstById {heap : List SyncTask} {t : SyncTask} {id0 : String}
    (ht : t ∈ heap) (hne : t.taskId ≠ id0) : t ∈ removeFirstById heap id0 := by
  unfold removeFirstById
  induction heap with
  | nil => simp at ht
  | cons a l ih =>
    rw [List.eraseP_cons]
    by_cases ha : a.taskId = id0
    · rw [show (decide (a.taskId = id0)) = true by simpa using ha]
      rcases List.mem_cons.mp ht with h1 | h1
      · rw [h1] at hne; exact absurd ha hne
      · exact h1
    · rw [show (decide (a.taskId = id0)) = false by simpa using ha]
      dsimp only [cond]
      rcases List.mem_cons.mp ht with h1 | h1
      · rw [h1]; exact List.mem_cons_self _ _
      · exact List.mem_cons_of_mem _ (ih h1)

theorem removeFirstById_sublist (heap : List SyncTask) (id0 : String) :
    (removeFirstById heap id0).Sublist heap :=
  List.eraseP_sublist heap

theorem foldl_remove_sublist (sel : List SyncTask) :
    ∀ heap : List SyncTask,
      (sel.foldl (fun h t => removeFirstById h t.taskId) heap).Sublist heap := by
  induction sel with
  | nil => intro heap; exact List.Sublist.refl heap
  | cons s rest ih =>
    intro heap
    exact (ih _).trans (removeFirstById_sublist heap s.taskId)

theorem mem_foldl_remove (sel : List SyncTask) :
    ∀ (heap : List SyncTask) (t : SyncTask), t ∈ heap →
      (∀ s ∈ sel, t.taskId ≠ s.taskId) →
      t ∈ sel.foldl (fun h t2 => removeFirstById h t2.taskId) heap := by
  induction sel with
  | nil => intro heap t ht _; exact ht
  | cons s rest ih =>
    intro heap t ht hne
    rw [List.foldl_cons]
    exact ih _ t
      (mem_removeFirstById ht (hne s (List.mem_cons_self _ _)))
      (fun s2 hs2 => hne s2 (List.mem_cons_of_mem _ hs2))

theorem getTasksForWindow_spec (heap : List SyncTask) (cap : ℚ)
    (hnd : (heap.map (fun t => t.taskId)).Nodup) :
    (0 ≤ cap → (((getTasksForWindow heap cap).1).map
        (fun t => t.dataSizeBytes)).sum ≤ cap) ∧
    (∀ t ∈ heap, t ∈ (getTasksForWindow heap cap).1 ∨
      t ∈ (getTasksForWindow heap cap).2) ∧
    ((getTasksForWindow heap cap).2).Sublist heap := by
  refine ⟨fun hc => greedyFit_sum _ cap hc, ?_, foldl_remove_sublist _ heap⟩
  intro t ht
  by_cases hsel : t ∈ (getTasksForWindow heap cap).1
  · exact Or.inl hsel
  · right
    unfold getTasksForWindow at hsel ⊢
    dsimp only at hsel ⊢
    apply mem_foldl_remove _ heap t ht
    intro s hs hid
    have hs2 : s ∈ heap :=
      (List.perm_insertionSort taskLE heap).mem_iff.mp (greedyFit_subset _ _ s hs)
    have : t = s := List.inj_on_of_nodup_map hnd ht hs2 hid
    rw [this] at hsel
    exact hsel hs

theorem foldl_schedStep_entries (windows : List ContactWindow) :
    ∀ (st : List (ContactWindow × List SyncTask) × List SyncTask)
      (e : ContactWindow × List SyncTask),
      e ∈ st.1 → e ∈ (windows.foldl schedStep st).1 := by
  induction windows with
  | nil => intro st e he; exact he
  | cons w ws ih =>
    intro st e he
    rw [List.foldl_cons]
    apply ih
    unfold schedStep
    dsimp only
    split
    · exact he
    · exact List.mem_append.mpr (Or.inl he)

theorem foldl_schedStep_spec (windows : List ContactWindow) :
    ∀ (acc : List (ContactWindow × List SyncTask)) (heap : List SyncTask),
      (∀ e ∈ acc, 0 ≤ windowCapacityBytes e.1 →
        ((e.2.map (fun t => t.dataSizeBytes)).sum ≤ windowCapacityBytes e.1)) →
      ((heap.map (fun t => t.taskId)).Nodup) →
      (∀ e ∈ (windows.foldl schedStep (acc, heap)).1,
        0 ≤ windowCapacityBytes e.1 →
          ((e.2.map (fun t => t.dataSizeBytes)).sum ≤ windowCapacityBytes e.1)) ∧
      (∀ t ∈ heap, t ∈ (windows.foldl schedStep (acc, heap)).2 ∨
        ∃ e ∈ (windows.foldl schedStep (acc, heap)).1, t ∈ e.2) := by
  induction windows with
  | nil =>
    intro acc heap hacc _
    rw [List.foldl_nil]
    exact ⟨hacc, fun t ht => Or.inl ht⟩
  | cons w ws ih =>
    intro acc heap hacc hnd
    rw [List.foldl_cons]
    have hg := getTasksForWindow_spec heap (windowCapacityBytes w) hnd
    have hnd2 : (((getTasksForWindow heap (windowCapacityBytes w)).2).map
        (fun t => t.taskId)).Nodup :=
      ((hg.2.2).map (fun t => t.taskId)).nodup hnd
    have hstep : schedStep (acc, heap) w
        = ((schedStep (acc, heap) w).1, (getTasksForWindow heap (windowCapacityBytes w)).2) := by
      unfold schedStep
      dsimp only
      split <;> rfl
    have hacc2 : ∀ e ∈ (schedStep (acc, heap) w).1,
        0 ≤ windowCapacityBytes e.1 →
          ((e.2.map (fun t => t.dataSizeBytes)).sum ≤ windowCapacityBytes e.1) := by
      unfold schedStep
      dsimp only
      split
      · exact hacc
      · intro e he
        rcases List.mem_append.mp he with h1 | h1
        · exact hacc e h1
        · have : e = (w, (getTasksForWindow heap (windowCapacityBytes w)).1) := by
            simpa using h1
          rw [this]
          intro hc
          exact hg.1 hc
    have := ih (schedStep (acc, heap) w).1
      ((getTasksForWindow heap (windowCapacityBytes w)).2)
      hacc2 hnd2
    rw [← hstep] at this
    refine ⟨this.1, ?_⟩
    intro t ht
    rcases hg.2.1 t ht with hsel | hkeep
    · right
      have hmem : (w, (getTasksForWindow heap (windowCapacityBytes w)).1)
          ∈ (ws.foldl schedStep (schedStep (acc, heap) w)).1 := by
        have hentry : (w, (getTasksForWindow heap (windowCapacityBytes w)).1)
            ∈ (schedStep (acc, heap) w).1 := by
          unfold schedStep
          dsimp only
          split
          · rename_i hemp
            rw [hemp] at hsel
            simp at hsel
          · exact List.mem_append.mpr (Or.inr (List.mem_cons_self _ _))
        exact foldl_schedStep_entries ws _ _ hentry
      exact ⟨_, hmem, hsel⟩
    · exact this.2 t hkeep

/-- C6.  For every contact-window list and every pending queue with distinct
task ids, in the schedule produced by the optimize loop the sum of
`dataSizeBytes` over the tasks selected into any window never exceeds that
window's byte capacity (`floor(bandwidth × duration / 8 · 2^20)` bytes, as
the source computes it); and a pending task that does not fit is skipped,
not scheduled: every queued task is either scheduled into some window of
the schedule or still pending in the queue afterwards. -/
theorem optimize_capacity_and_skip (windows : List ContactWindow)
    (queue : List SyncTask) (hnd : (queue.map (fun t => t.taskId)).Nodup) :
    (∀ e ∈ (SyncScheduler.optimizeOn windows queue).1,
      0 ≤ windowCapacityBytes e.1 →
        ((e.2.map (fun t => t.dataSizeBytes)).sum ≤ windowCapacityBytes e.1)) ∧
    (∀ t ∈ queue, t ∈ (SyncScheduler.optimizeOn windows queue).2 ∨
      ∃ e ∈ (SyncScheduler.optimizeOn windows queue).1, t ∈ e.2) := by
  unfold SyncScheduler.optimizeOn
  exact foldl_schedStep_spec windows [] queue (by simp) hnd

/-- C6 witness: one 8-second, 100 Mbps window (capacity 104857600 bytes)
and a two-task queue (a critical and a low task of 60 MB each): the
capacity bound and the schedule/pending split hold at this concrete input. -/
theorem optimize_capacity_and_skip_witness :
    (([⟨.critical, 3600000, "sat1", 60000000, "task_1", "", 0⟩,
       ⟨.low, 172800000, "sat1", 60000000, "task_2", "", 0⟩] :
        List SyncTask).map (fun t => t.taskId)).Nodup ∧
    ((∀ e ∈ (SyncScheduler.optimizeOn
        [⟨⟨"gs", 78, 15, 450, 100, 5⟩, 0, 8000, 70, 100⟩]
        [⟨.critical, 3600000, "sat1", 60000000, "task_1", "", 0⟩,
         ⟨.low, 172800000, "sat1", 60000000, "task_2", "", 0⟩]).1,
      0 ≤ windowCapacityBytes e.1 →
        ((e.2.map (fun t => t.dataSizeBytes)).sum ≤ windowCapacityBytes e.1)) ∧
    (∀ t ∈ ([⟨.critical, 3600000, "sat1", 60000000, "task_1", "", 0⟩,
             ⟨.low, 172800000, "sat1", 60000000, "task_2", "", 0⟩] : List SyncTask),
      t ∈ (SyncScheduler.optimizeOn
        [⟨⟨"gs", 78, 15, 450, 100, 5⟩, 0, 8000, 70, 100⟩]
        [⟨.critical, 3600000, "sat1", 60000000, "task_1", "", 0⟩,
         ⟨.low, 172800000, "sat1", 60000000, "task_2", "", 0⟩]).2 ∨
      ∃ e ∈ (SyncScheduler.optimizeOn
        [⟨⟨"gs", 78, 15, 450, 100, 5⟩, 0, 8000, 70, 100⟩]
        [⟨.critical, 3600000, "sat1", 60000000, "task_1", "", 0⟩,
         ⟨.low, 172800000, "sat1", 60000000, "task_2", "", 0⟩]).1, t ∈ e.2)) := by
  refine ⟨by decide, ?_⟩
  exact optimize_capacity_and_skip
    [⟨⟨"gs", 78, 15, 450, 100, 5⟩, 0, 8000, 70, 100⟩]
    [⟨.critical, 3600000, "sat1", 60000000, "task_1", "", 0⟩,
     ⟨.low, 172800000, "sat1", 60000000, "task_2", "", 0⟩] (by decide)

/-! ## Space mesh (mesh source file): `SpaceMesh`, topology and routing

`Math.cos`, `Math.sin`, `Math.sqrt` and `Math.PI` (floating-point
transcendentals with no exact rational embedding) are abstracted as a
`Geom` oracle; every theorem below holds for every oracle, and each
concrete instance uses an oracle that matches the JS values at every point
it is evaluated on. -/

/-- Type of communication link (source enum `LinkType`). -/
inductive LinkType
  | optical
  | rf
  | hybrid
deriving DecidableEq

/-- An orbital node (source interface `OrbitalNode`). -/
structure OrbitalNode where
  nodeId : String
  orbitAltitudeKm : ℚ
  orbitInclinationDeg : ℚ
  raanDeg : ℚ
  meanAnomalyDeg : ℚ
  islRangeKm : ℚ
  islBandwidthGbps : ℚ
  computeTflops : ℚ
deriving DecidableEq

/-- An inter-satellite link (source interface `ISLLink`). -/
structure ISLLink where
  sourceId : String
  targetId : String
  distanceKm : ℚ
  bandwidthGbps : ℚ
  latencyMs : ℚ
  linkType : LinkType
  active : Bool
deriving DecidableEq

/-- A route (source interface `Route`).  `minBandwidthGbps = Option.none`
models the `Infinity` the source stores on the zero-hop self route. -/
structure Route where
  sourceId : String
  destinationId : String
  path : List String
  totalDistanceKm : ℚ
  totalLatencyMs : ℚ
  minBandwidthGbps : Option ℚ
  numHops : ℕ
deriving DecidableEq

/-- Abstract model of the JS float math functions used by the mesh. -/
structure Geom where
  cosq : ℚ → ℚ
  sinq : ℚ → ℚ
  sqrtq : ℚ → ℚ
  piq : ℚ

/-- Earth radius constant from the source (6371 km). -/
def earthRadiusKm : ℚ := 6371

/-- The mesh state (source class `SpaceMesh`): node table, link table keyed
by the string `` sourceId ++ "-" ++ targetId ``, and adjacency sets. -/
structure SpaceMesh where
  defaultIslRangeKm : ℚ
  nodes : JsMap String OrbitalNode
  links : JsMap String ISLLink
  adjacency : JsMap String (List String)

/-- Source `addNode`. -/
def SpaceMesh.addNode (m : SpaceMesh) (node : OrbitalNode) : SpaceMesh :=
  { m with nodes := JsMap.set m.nodes node.nodeId node,
           adjacency := JsMap.set m.adjacency node.nodeId [] }

/-- Whether `pat` occurs as a contiguous sublist of `l`. -/
def listInfix (pat : List Char) : List Char → Bool
  | [] => pat.isEmpty
  | c :: rest => pat.isPrefixOf (c :: rest) || listInfix pat rest

/-- JS `String.prototype.includes`: contiguous substring containment. -/
def strIncludes (s pat : String) : Bool := listInfix pat.data s.data

/-- Source `removeNode`: delete every link whose KEY CONTAINS the id as a
substring (`key.includes(nodeId)`), remove the id from every adjacency set,
drop its adjacency entry and its node entry; no-op for unknown ids. -/
def SpaceMesh.removeNode (m : SpaceMesh) (nodeId : String) : SpaceMesh :=
  if JsMap.has m.nodes nodeId = false then m
  else
    { m with
      links := m.links.filter (fun kv => ¬ strIncludes kv.1 nodeId),
      adjacency := (m.adjacency.map
          (fun kv => (kv.1, kv.2.filter (fun x => ¬ x = nodeId)))).filter
        (fun kv => ¬ kv.1 = nodeId),
      nodes := JsMap.del m.nodes nodeId }

/-- Source private `calculateDistance`: circular-orbit transform to inertial
coordinates, then the Euclidean distance. -/
def calculateDistance (geom : Geom) (node1 node2 : OrbitalNode) : ℚ :=
  let r1 := earthRadiusKm + node1.orbitAltitudeKm
  let r2 := earthRadiusKm + node2.orbitAltitudeKm
  let theta1 := node1.meanAnomalyDeg * geom.piq / 180
  let theta2 := node2.meanAnomalyDeg * geom.piq / 180
  let inc1 := node1.orbitInclinationDeg * geom.piq / 180
  let inc2 := node2.orbitInclinationDeg * geom.piq / 180
  let raan1 := node1.raanDeg * geom.piq / 180
  let raan2 := node2.raanDeg * geom.piq / 180
  let x1 := r1 * (geom.cosq raan1 * geom.cosq theta1
    - geom.sinq raan1 * geom.sinq theta1 * geom.cosq inc1)
  let y1 := r1 * (geom.sinq raan1 * geom.cosq theta1
    + geom.cosq raan1 * geom.sinq theta1 * geom.cosq inc1)
  let z1 := r1 * geom.sinq theta1 * geom.sinq inc1
  let x2 := r2 * (geom.cosq raan2 * geom.cosq theta2
    - geom.sinq raan2 * geom.sinq theta2 * geom.cosq inc2)
  let y2 := r2 * (geom.sinq raan2 * geom.cosq theta2
    + geom.cosq raan2 * geom.sinq theta2 * geom.cosq inc2)
  let z2 := r2 * geom.sinq theta2 * geom.sinq inc2
  geom.sqrtq ((x2 - x1) ^ 2 + (y2 - y1) ^ 2 + (z2 - z1) ^ 2)

/-- Source private `hasLineOfSight`: an Earth-chord bound on the maximum
unobstructed distance between the two orbit shells. -/
def hasLineOfSight (geom : Geom) (node1 node2 : OrbitalNode) : Bool :=
  let minAltitude := min node1.orbitAltitudeKm node2.orbitAltitudeKm
  let distance := calculateDistance geom node1 node2
  let maxLosDistance :=
    2 * geom.sqrtq ((earthRadiusKm + minAltitude) ^ 2 - earthRadiusKm ^ 2)
  decide (distance ≤ maxLosDistance)

/-- JS `Set.add`: append when not already present. -/
def setAdd (s : List String) (v : String) : List String :=
  if v ∈ s then s else s ++ [v]

/-- Add `v` to the adjacency set of `k` (`adjacency.get(k)!.add(v)`; no-op
when `k` has no entry, which for API-reachable states never happens). -/
def adjAdd (adj : JsMap String (List String)) (k v : String) :
    JsMap String (List String) :=
  match JsMap.get adj k with
  | some s => JsMap.set adj k (setAdd s v)
  | Option.none => adj

/-- All ordered pairs `(l[i], l[j])` with `i < j`, in the source's loop
order. -/
def allPairs (l : List String) : List (String × String) :=
  l.enum.foldr (fun p acc => ((l.drop (p.1 + 1)).map (fun y => (p.2, y))) ++ acc) []

/-- The body of `updateTopology`'s nested pair loop: for a pair of node ids
within mutual range and with line of sight, install the two directed link
entries and the two adjacency memberships.  Link latency is
`distance / c * 1000` ms. -/
def topoStep (geom : Geom) (m : SpaceMesh) (st : SpaceMesh)
    (pr : String × String) : SpaceMesh :=
  match JsMap.get m.nodes pr.1, JsMap.get m.nodes pr.2 with
  | some node1, some node2 =>
    let distance := calculateDistance geom node1 node2
    let maxRange := min node1.islRangeKm node2.islRangeKm
    if distance ≤ maxRange ∧ hasLineOfSight geom node1 node2 = true then
      let bandwidth := min node1.islBandwidthGbps node2.islBandwidthGbps
      let latency := distance / speedOfLightKmS * 1000
      { st with
        links := JsMap.set
          (JsMap.set st.links (pr.1 ++ "-" ++ pr.2)
            ⟨pr.1, pr.2, distance, bandwidth, latency, LinkType.optical, true⟩)
          (pr.2 ++ "-" ++ pr.1)
          ⟨pr.2, pr.1, distance, bandwidth, latency, LinkType.optical, true⟩,
        adjacency := adjAdd (adjAdd st.adjacency pr.1 pr.2) pr.2 pr.1 }
    else st
  | _, _ => st

/-- Source `updateTopology`: clear the link table and every adjacency set
(keys kept), then run the pair loop over all ordered pairs `i < j` of
registered node ids. -/
def SpaceMesh.updateTopology (geom : Geom) (m : SpaceMesh) : SpaceMesh :=
  let cleared : SpaceMesh :=
    { m with links := [],
             adjacency := m.adjacency.map (fun kv => (kv.1, ([] : List String))) }
  (allPairs (JsMap.keys m.nodes)).foldl (topoStep geom m) cleared

/-- Route-optimization criterion (the source's `"latency" | "bandwidth"`). -/
inductive OptimizeFor
  | latency
  | bandwidth
deriving DecidableEq

/-- The Dijkstra edge weight of a link. -/
def linkWeight (opt : OptimizeFor) (link : ISLLink) : ℚ :=
  match opt with
  | .latency => link.latencyMs
  | .bandwidth => 1 / link.bandwidthGbps

/-- A priority-queue entry `{dist, nodeId}`. -/
structure PQEntry where
  dist : ℚ
  nodeId : String
deriving DecidableEq

/-- The pq comparator `(a, b) => a.dist - b.dist` as a relation. -/
def pqLE (a b : PQEntry) : Prop := a.dist ≤ b.dist

instance : DecidableRel pqLE := by
  intro a b
  unfold pqLE
  infer_instance

/-- Dijkstra working state: tentative distances (`Option.none` inside the
value is the JS `Infinity`), predecessors, the visited set in insertion
order, and the pending queue. -/
structure DState where
  distances : JsMap String (Option ℚ)
  predecessors : JsMap String (Option String)
  visited : List String
  pq : List PQEntry

/-- One relaxation from the just-settled `cur` towards a neighbour `nb`
(the loop body over `adjacency.get(currentId)`): skip visited neighbours,
missing or inactive links; push an improved tentative distance.  The
`distances.get` fallthrough arms model the JS NaN comparisons (always
false) exactly: no update happens there. -/
def relax (m : SpaceMesh) (opt : OptimizeFor) (cur : String) (st : DState)
    (nb : String) : DState :=
  if nb ∈ st.visited then st
  else
    match JsMap.get m.links (cur ++ "-" ++ nb) with
    | Option.none => st
    | some link =>
      if link.active = false then st
      else
        match JsMap.get st.distances cur with
        | some (some dcur) =>
          let newDist := dcur + linkWeight opt link
          let better :=
            match JsMap.get st.distances nb with
            | some (some dnb) => decide (newDist < dnb)
            | some Option.none => true
            | Option.none => false
          if better then
            { distances := JsMap.set st.distances nb (some newDist),
              predecessors := JsMap.set st.predecessors nb (some cur),
              visited := st.visited,
              pq := st.pq ++ [⟨newDist, nb⟩] }
          else st
        | _ => st

/-- The Dijkstra while loop (source `findRoute`, main loop), fuel-indexed:
sort the queue, shift the minimum, skip stale entries, settle fresh nodes,
break when the destination is settled, relax the settled node's
neighbours.  The fuel never runs out for the fuel `findRoute` supplies
(each iteration consumes a queue entry and pushes at most the settled
node's degree). -/
def dijkstraLoop (m : SpaceMesh) (opt : OptimizeFor) (dest : String) :
    ℕ → DState → DState
  | 0, st => st
  | fuel + 1, st =>
    match st.pq.insertionSort pqLE with
    | [] => st
    | e :: rest =>
      let st1 : DState := ⟨st.distances, st.predecessors, st.visited, rest⟩
      if e.nodeId ∈ st1.visited then dijkstraLoop m opt dest fuel st1
      else
        let st2 : DState :=
          ⟨st1.distances, st1.predecessors, st1.visited ++ [e.nodeId], st1.pq⟩
        if e.nodeId = dest then st2
        else
          let neighbors := (JsMap.get m.adjacency e.nodeId).getD []
          dijkstraLoop m opt dest fuel (neighbors.foldl (relax m opt e.nodeId) st2)

/-- Path reconstruction (`while (current !== null) { path.unshift(current);
current = predecessors.get(current) ?? null }`), fuel-indexed. -/
def reconstructPath (preds : JsMap String (Option String)) :
    ℕ → String → List String
  | 0, current => [current]
  | fuel + 1, current =>
    match (JsMap.get preds current).getD Option.none with
    | Option.none => [current]
    | some p => reconstructPath preds fuel p ++ [current]

/-- One step of the route-metrics loop of `findRoute`: accumulate distance,
latency and minimum bandwidth from the link of one consecutive pair
(`Option.none` in the bandwidth slot is the initial `Infinity`); a missing
link is skipped (`if (link)`). -/
def metricStep (m : SpaceMesh) (acc : ℚ × ℚ × Option ℚ) (pr : String × String) :
    ℚ × ℚ × Option ℚ :=
  match JsMap.get m.links (pr.1 ++ "-" ++ pr.2) with
  | some link =>
    (acc.1 + link.distanceKm, acc.2.1 + link.latencyMs,
      match acc.2.2 with
      | Option.none => some link.bandwidthGbps
      | some b => some (min b link.bandwidthGbps))
  | Option.none => acc

/-- The route-metrics loop of `findRoute` over the consecutive pairs of the
path. -/
def routeMetrics (m : SpaceMesh) (path : List String) : ℚ × ℚ × Option ℚ :=
  (path.zip path.tail).foldl (metricStep m) (0, 0, Option.none)

/-- Total size of all adjacency sets (the fuel bound for the loop). -/
def totalAdjSize (m : SpaceMesh) : ℕ :=
  (m.adjacency.map (fun kv => kv.2.length)).sum

/-- Source `findRoute`: unknown endpoints give the empty soft "no route"
value; a self route is zero-hop with unbounded bandwidth; otherwise run
Dijkstra from the source, detect unreachability as an `Infinity` distance,
and rebuild the path and its metrics (latency rounded to 3 decimals,
distance to 2). -/
def SpaceMesh.findRoute (m : SpaceMesh) (sourceId destinationId : String)
    (opt : OptimizeFor) : Route :=
  if ¬ (JsMap.has m.nodes sourceId = true ∧ JsMap.has m.nodes destinationId = true) then
    ⟨sourceId, destinationId, [], 0, 0, some 0, 0⟩
  else if sourceId = destinationId then
    ⟨sourceId, destinationId, [sourceId], 0, 0, Option.none, 0⟩
  else
    let init : DState :=
      ⟨JsMap.set (m.nodes.foldl (fun dm kv => JsMap.set dm kv.1 Option.none)
          JsMap.empty) sourceId (some 0),
        m.nodes.foldl (fun pm kv => JsMap.set pm kv.1 Option.none) JsMap.empty,
        [], [⟨0, sourceId⟩]⟩
    let final := dijkstraLoop m opt destinationId (1 + totalAdjSize m) init
    if JsMap.get final.distances destinationId = some Option.none then
      ⟨sourceId, destinationId, [], 0, 0, some 0, 0⟩
    else
      let path := reconstructPath final.predecessors (m.nodes.length + 1) destinationId
      let metrics := routeMetrics m path
      ⟨sourceId, destinationId, path, round2 metrics.1, round3 metrics.2.1,
        some (match metrics.2.2 with | Option.none => 0 | some b => b),
        path.length - 1⟩

/-! ## C8: `removeNode` and its substring link filter -/

/-- A concrete float-math oracle for the worked meshes.  All angles in the
example nodes are zero, where `Math.cos = 1` and `Math.sin = 0` exactly;
`sqrtq` is tabulated at the (perfect-square or LOS-bound) arguments that
actually arise, agreeing with JS on every comparison the mesh makes. -/
def exGeom : Geom where
  cosq := fun _ => 1
  sinq := fun _ => 0
  sqrtq := fun q =>
    if q = 1000000 then 1000
    else if q = 7310600 then 2704
    else if q = 100000000 then 10000
    else if q = 121000000 then 11000
    else if q = 245730600 then 15676
    else 0
  piq := 0

/-- An example node at a given altitude (all angles zero, 5000 km ISL
range, 10 Gbps, 10 TFLOPS). -/
def exNode (id : String) (alt : ℚ) : OrbitalNode :=
  ⟨id, alt, 0, 0, 0, 5000, 10, 10⟩

/-- Three registered nodes, topology built by `updateTopology`:
`sat11`–`sat2` are 1000 km apart (linked); `sat1` is 10000+ km from both
(beyond the 5000 km range, so unlinked). -/
def exMesh3 : SpaceMesh :=
  SpaceMesh.updateTopology exGeom
    ((((⟨5000, [], [], []⟩ : SpaceMesh).addNode (exNode "sat1" 550)).addNode
        (exNode "sat11" 10550)).addNode (exNode "sat2" 11550))

/-- C8: `removeNode(id)` is claimed to remove only the node and its
incident links, leaving links between two other nodes unchanged.  The code
filters link keys with `key.includes(nodeId)` — a substring test — so
`removeNode "sat1"` deletes the link `"sat11-sat2"` between the two
remaining registered nodes `sat11` and `sat2` (whose adjacency still lists
each other), because `"sat1"` occurs inside `"sat11"`.  This contradicts
the claim (and the code's own comment), hence a code bug. -/
theorem removeNode_substring_deletes_foreign_link :
    JsMap.has exMesh3.nodes "sat1" = true ∧
    (JsMap.get exMesh3.links "sat11-sat2").isSome = true ∧
    JsMap.has (exMesh3.removeNode "sat1").nodes "sat11" = true ∧
    JsMap.has (exMesh3.removeNode "sat1").nodes "sat2" = true ∧
    "sat2" ∈ (JsMap.get (exMesh3.removeNode "sat1").adjacency "sat11").getD [] ∧
    JsMap.get (exMesh3.removeNode "sat1").links "sat11-sat2" = Option.none := by
  norm_num +decide [exMesh3, exGeom, exNode, SpaceMesh.updateTopology, topoStep,
    SpaceMesh.addNode,
    SpaceMesh.removeNode, JsMap.has, JsMap.get, JsMap.set, JsMap.del, JsMap.keys,
    allPairs, adjAdd, setAdd, calculateDistance, hasLineOfSight, earthRadiusKm,
    speedOfLightKmS, strIncludes, listInfix, List.find?, List.foldl, List.foldr]

/-! ## C1: `findRoute` Dijkstra optimality

The active-link graph, walks through it, and the Dijkstra loop invariant.
-/

/-- The weighted edge relation the Dijkstra loop explores: `v` lies in
`u`'s adjacency set, the link keyed `u-v` exists and is active; the value
is the link's weight under `opt`. -/
def edgeW (m : SpaceMesh) (opt : OptimizeFor) (u v : String) : Option ℚ :=
  if v ∈ (JsMap.get m.adjacency u).getD [] then
    match JsMap.get m.links (u ++ "-" ++ v) with
    | some l => if l.active = true then some (linkWeight opt l) else Option.none
    | Option.none => Option.none
  else Option.none

/-- Walks through the active-link graph, together with their accumulated
weight. -/
inductive Walk (m : SpaceMesh) (opt : OptimizeFor) : String → String → ℚ → Prop
  | nil (u : String) : Walk m opt u u 0
  | cons {u v t : String} {w c : ℚ} :
      edgeW m opt u v = some w → Walk m opt v t c → Walk m opt u t (w + c)

/-- Total weight of the consecutive hops of a node list (`Option.none`
when some hop is not an active edge). -/
def listWalkCost (m : SpaceMesh) (opt : OptimizeFor) : List String → Option ℚ
  | u :: v :: rest =>
    match edgeW m opt u v, listWalkCost m opt (v :: rest) with
    | some w, some c => some (w + c)
    | _, _ => Option.none
  | _ => some 0

/-- Mesh well-formedness used by the Dijkstra proof: every adjacency
target is a registered node, and every explored edge weight is
nonnegative.  Both are proved below for any topology `updateTopology`
builds (under a square-root oracle that is nonnegative on nonnegative
inputs, as `Math.sqrt` is). -/
structure MeshWF (m : SpaceMesh) (opt : OptimizeFor) : Prop where
  adjReg : ∀ u s, JsMap.get m.adjacency u = some s → ∀ v ∈ s, v ∈ JsMap.keys m.nodes
  wNonneg : ∀ u v w, edgeW m opt u v = some w → 0 ≤ w

/-- The caller-facing construction of a mesh state: the constructor plus a
sequence of `addNode` registrations, the source API's only transitions
besides `removeNode` and `updateTopology`. -/
def meshOfNodes (range : ℚ) (l : List OrbitalNode) : SpaceMesh :=
  l.foldl SpaceMesh.addNode ⟨range, [], [], []⟩

/-- Pointwise "no larger tentative distance" order on distance entries
(`some Option.none` is `Infinity`, outer `Option.none` an absent key). -/
def dLE : Option (Option ℚ) → Option (Option ℚ) → Prop
  | some (some a), some (some b) => a ≤ b
  | some (some _), some Option.none => True
  | some Option.none, some Option.none => True
  | Option.none, Option.none => True
  | _, _ => False

/-- All edges out of the nodes of `V` are relaxed in `st`. -/
def relaxedOutOn (m : SpaceMesh) (opt : OptimizeFor) (V : List String)
    (st : DState) : Prop :=
  ∀ x ∈ V, ∀ dx, JsMap.get st.distances x = some (some dx) →
    ∀ y w, edgeW m opt x y = some w →
      ∃ dy, JsMap.get st.distances y = some (some dy) ∧ dy ≤ dx + w

/-- The core Dijkstra loop invariant (everything except relaxedness of the
most recently settled node, which the neighbour loop restores). -/
structure DCore (m : SpaceMesh) (opt : OptimizeFor) (source : String)
    (st : DState) : Prop where
  keysD : ∀ y, (∃ dv, JsMap.get st.distances y = some dv) ↔ y ∈ JsMap.keys m.nodes
  keysP : ∀ y, (∃ pv, JsMap.get st.predecessors y = some pv) ↔ y ∈ JsMap.keys m.nodes
  srcD : JsMap.get st.distances source = some (some 0)
  srcP : JsMap.get st.predecessors source = some Option.none
  srcVis : source ∈ st.visited ∨
    (st.visited = [] ∧ st.pq ≠ [] ∧ ∀ e ∈ st.pq, e.nodeId = source ∧ e.dist = 0)
  nodupV : st.visited.Nodup
  visReg : ∀ u ∈ st.visited, u ∈ JsMap.keys m.nodes
  visFin : ∀ u ∈ st.visited, ∃ d, JsMap.get st.distances u = some (some d)
  finW : ∀ u d, JsMap.get st.distances u = some (some d) → Walk m opt source u d
  predChain : ∀ u d, JsMap.get st.distances u = some (some d) → u ≠ source →
    ∃ p dp c, JsMap.get st.predecessors u = some (some p) ∧
      JsMap.get st.distances p = some (some dp) ∧ edgeW m opt p u = some c ∧
      d = dp + c ∧ p ∈ st.visited ∧
      (u ∈ st.visited → st.visited.indexOf p < st.visited.indexOf u)
  visMin : ∀ u ∈ st.visited, ∀ d, JsMap.get st.distances u = some (some d) →
    ∀ c, Walk m opt source u c → d ≤ c
  pqGE : ∀ e ∈ st.pq, ∃ d, JsMap.get st.distances e.nodeId = some (some d) ∧ d ≤ e.dist
  frontier : ∀ y, y ∉ st.visited → ∀ dy,
    JsMap.get st.distances y = some (some dy) →
    ∃ e ∈ st.pq, e.nodeId = y ∧ e.dist = dy

/-- Adjacency mass of the not-yet-visited keys (the loop's fuel measure),
as a recursion over the adjacency entry list. -/
def unvisAdjL (visited : List String) : List (String × List String) → ℕ
  | [] => 0
  | kv :: rest =>
    (if kv.1 ∈ visited then 0 else kv.2.length) + unvisAdjL visited rest

/-- The fuel measure on a mesh. -/
def unvisAdj (m : SpaceMesh) (visited : List String) : ℕ :=
  unvisAdjL visited m.adjacency

theorem JsMap.has_eq_true_iff {α β : Type} [DecidableEq α] (m : JsMap α β) (k : α) :
    JsMap.has m k = true ↔ k ∈ JsMap.keys m := by
  rw [← JsMap.get_eq_some_iff_mem_keys]
  unfold JsMap.has JsMap.get
  rcases h : m.find? (fun kv => kv.1 = k) with _ | kv <;> simp [h]

theorem dLE_refl (a : Option (Option ℚ)) : dLE a a := by
  rcases a with _ | (_ | q) <;> simp [dLE]

theorem dLE_trans {a b c : Option (Option ℚ)} (h1 : dLE a b) (h2 : dLE b c) :
    dLE a c := by
  rcases a with _ | (_ | x) <;> rcases b with _ | (_ | y) <;>
    rcases c with _ | (_ | z) <;> simp [dLE] at h1 h2 ⊢
  exact le_trans h1 h2

theorem dLE_fin {a : Option (Option ℚ)} {b : ℚ} (h : dLE a (some (some b))) :
    ∃ x, a = some (some x) ∧ x ≤ b := by
  rcases a with _ | (_ | x) <;> simp [dLE] at h ⊢
  exact h

instance : IsTotal PQEntry pqLE := ⟨fun a b => le_total a.dist b.dist⟩

instance : IsTrans PQEntry pqLE := ⟨fun _ _ _ => le_trans⟩

theorem insertionSort_pop {l rest : List PQEntry} {e : PQEntry}
    (h : l.insertionSort pqLE = e :: rest) :
    e ∈ l ∧ (∀ x ∈ l, e.dist ≤ x.dist) ∧ (∀ x ∈ l, x = e ∨ x ∈ rest) ∧
    (∀ x ∈ rest, x ∈ l) ∧ rest.length + 1 = l.length := by
  have hperm : (e :: rest).Perm l := by
    have := l.perm_insertionSort pqLE
    rwa [h] at this
  have hsorted : (e :: rest).Sorted pqLE := by
    have := l.sorted_insertionSort pqLE
    rwa [h] at this
  refine ⟨hperm.subset (List.mem_cons_self e rest), ?_, ?_, ?_, ?_⟩
  · intro x hx
    rcases List.mem_cons.mp (hperm.symm.subset hx) with hx1 | hx1
    · rw [hx1]
    · exact (List.sorted_cons.mp hsorted).1 x hx1
  · intro x hx
    exact List.mem_cons.mp (hperm.symm.subset hx)
  · intro x hx
    exact hperm.subset (List.mem_cons_of_mem e hx)
  · simpa using hperm.length_eq

theorem indexOf_append_left (l l' : List String) (x : String) (hx : x ∈ l) :
    (l ++ l').indexOf x = l.indexOf x := by
  induction l with
  | nil => simp at hx
  | cons a t ih =>
    by_cases hax : a = x
    · simp [List.cons_append, List.indexOf_cons, hax]
    · have hx' : x ∈ t := by
        rcases List.mem_cons.mp hx with h1 | h1
        · exact absurd h1.symm hax
        · exact h1
      simp [List.cons_append, List.indexOf_cons, hax, ih hx']

theorem indexOf_append_self (l : List String) (x : String) (hx : x ∉ l) :
    (l ++ [x]).indexOf x = l.length := by
  induction l with
  | nil => simp
  | cons a t ih =>
    have hax : ¬ a = x := fun h => hx (h ▸ List.mem_cons_self a t)
    have hx' : x ∉ t := fun h => hx (List.mem_cons_of_mem _ h)
    simp [List.cons_append, List.indexOf_cons, hax, ih hx']

theorem nodup_subset_length {l l' : List String} (hnd : l.Nodup)
    (hsub : ∀ x ∈ l, x ∈ l') : l.length ≤ l'.length := by
  have h1 : l.toFinset.card = l.length := List.toFinset_card_of_nodup hnd
  have h2 : l.toFinset ⊆ l'.toFinset := by
    intro x hx
    rw [List.mem_toFinset] at hx ⊢
    exact hsub x hx
  calc l.length = l.toFinset.card := h1.symm
    _ ≤ l'.toFinset.card := Finset.card_le_card h2
    _ ≤ l'.length := l'.toFinset_card_le

theorem walk_cast {m : SpaceMesh} {opt : OptimizeFor} {u t : String} {c c' : ℚ}
    (h : Walk m opt u t c) (he : c = c') : Walk m opt u t c' := he ▸ h

theorem walk_nonneg {m : SpaceMesh} {opt : OptimizeFor} (hwf : MeshWF m opt) :
    ∀ {u t : String} {c : ℚ}, Walk m opt u t c → 0 ≤ c := by
  intro u t c h
  induction h with
  | nil a => exact le_refl 0
  | cons he _ ih => exact add_nonneg (hwf.wNonneg _ _ _ he) ih

theorem walk_extend {m : SpaceMesh} {opt : OptimizeFor} :
    ∀ {u x : String} {c : ℚ}, Walk m opt u x c →
      ∀ {y : String} {w : ℚ}, edgeW m opt x y = some w → Walk m opt u y (c + w) := by
  intro u x c h
  induction h with
  | nil a =>
    intro y w he
    exact walk_cast (Walk.cons he (Walk.nil y)) (by ring)
  | cons he2 _ ih =>
    intro y w he
    exact walk_cast (Walk.cons he2 (ih he)) (by ring)

theorem walk_cross {m : SpaceMesh} {opt : OptimizeFor} (hwf : MeshWF m opt)
    (V : List String) :
    ∀ {u t : String} {c : ℚ}, Walk m opt u t c → u ∈ V → t ∉ V →
      ∃ x y wxy c1 c2, x ∈ V ∧ y ∉ V ∧ edgeW m opt x y = some wxy ∧
        Walk m opt u x c1 ∧ c = c1 + wxy + c2 ∧ 0 ≤ c2 := by
  intro u t c h
  induction h with
  | nil a =>
    intro ha hna
    exact absurd ha hna
  | @cons u v t w c he hw ih =>
    intro hu ht
    by_cases hv : v ∈ V
    · obtain ⟨x, y, wxy, c1, c2, hx, hy, hexy, hwalk, hc, hc2⟩ := ih hv ht
      exact ⟨x, y, wxy, w + c1, c2, hx, hy, hexy, Walk.cons he hwalk,
        by rw [hc]; ring, hc2⟩
    · exact ⟨u, v, w, 0, c, hu, hv, he, Walk.nil u, by ring, walk_nonneg hwf hw⟩

theorem mem_foldr_append {α β : Type} (f : α → List β) (l : List α) (x : β) :
    x ∈ l.foldr (fun p acc => f p ++ acc) [] ↔ ∃ p ∈ l, x ∈ f p := by
  induction l with
  | nil => simp
  | cons a t ih => simp [List.foldr_cons, List.mem_append, ih]

theorem mem_allPairs {l : List String} {p : String × String} (h : p ∈ allPairs l) :
    p.1 ∈ l ∧ p.2 ∈ l := by
  unfold allPairs at h
  rw [mem_foldr_append] at h
  obtain ⟨q, hq, hp⟩ := h
  obtain ⟨y, hy, hpy⟩ := List.mem_map.mp hp
  have h1 : q.2 ∈ l := List.get?_mem (List.mem_enum_iff_get?.mp hq)
  have h2 : y ∈ l := List.mem_of_mem_drop hy
  rw [← hpy]
  exact ⟨h1, h2⟩

theorem unvisAdjL_nil_eq (l : List (String × List String)) :
    unvisAdjL [] l = (l.map (fun kv => kv.2.length)).sum := by
  induction l with
  | nil => rfl
  | cons kv rest ih => simp [unvisAdjL, ih]

theorem unvisAdj_nil (m : SpaceMesh) : unvisAdj m [] = totalAdjSize m :=
  unvisAdjL_nil_eq m.adjacency

theorem unvisAdjL_mono {vis vis' : List String}
    (hsub : ∀ x ∈ vis, x ∈ vis') (l : List (String × List String)) :
    unvisAdjL vis' l ≤ unvisAdjL vis l := by
  induction l with
  | nil => exact le_refl 0
  | cons kv rest ih =>
    unfold unvisAdjL
    by_cases hk : kv.1 ∈ vis
    · simp only [if_pos hk, if_pos (hsub _ hk)]
      omega
    · by_cases hk' : kv.1 ∈ vis'
      · simp only [if_neg hk, if_pos hk']
        omega
      · simp only [if_neg hk, if_neg hk']
        omega

theorem unvisAdjL_settle {vis : List String} {cur : String} (hcur : cur ∉ vis) :
    ∀ l : List (String × List String),
      ((JsMap.get l cur).getD []).length + unvisAdjL (vis ++ [cur]) l ≤
        unvisAdjL vis l := by
  intro l
  induction l with
  | nil => simp [JsMap.get, List.find?, unvisAdjL]
  | cons kv rest ih =>
    by_cases hk : kv.1 = cur
    · have hget : JsMap.get (kv :: rest) cur = some kv.2 := by
        simp [JsMap.get, List.find?, hk]
      rw [hget]
      simp only [Option.getD_some]
      have h1 : kv.1 ∉ vis := hk ▸ hcur
      have h2 : kv.1 ∈ vis ++ [cur] := by
        rw [hk]
        simp
      unfold unvisAdjL
      simp only [if_neg h1, if_pos h2]
      have := @unvisAdjL_mono vis (vis ++ [cur])
        (fun x hx => List.mem_append_left _ hx) rest
      omega
    · have hget : JsMap.get (kv :: rest) cur = JsMap.get rest cur := by
        simp [JsMap.get, List.find?, hk]
      rw [hget]
      have hmem : kv.1 ∈ vis ++ [cur] ↔ kv.1 ∈ vis := by
        simp [List.mem_append, hk]
      unfold unvisAdjL
      by_cases hv : kv.1 ∈ vis
      · simp only [if_pos hv, if_pos (hmem.mpr hv)]
        have := ih
        omega
      · simp only [if_neg hv, if_neg (fun h => hv (hmem.mp h))]
        have := ih
        omega

theorem edgeW_intro {m : SpaceMesh} {opt : OptimizeFor} {cur nb : String}
    {link : ISLLink} (hnb : nb ∈ (JsMap.get m.adjacency cur).getD [])
    (hlink : JsMap.get m.links (cur ++ "-" ++ nb) = some link)
    (hact : link.active = true) :
    edgeW m opt cur nb = some (linkWeight opt link) := by
  unfold edgeW
  rw [if_pos hnb, hlink]
  dsimp only
  rw [if_pos hact]

theorem edgeW_elim {m : SpaceMesh} {opt : OptimizeFor} {u v : String} {w : ℚ}
    (h : edgeW m opt u v = some w) :
    v ∈ (JsMap.get m.adjacency u).getD [] ∧
    ∃ l, JsMap.get m.links (u ++ "-" ++ v) = some l ∧ l.active = true ∧
      w = linkWeight opt l := by
  unfold edgeW at h
  by_cases hv : v ∈ (JsMap.get m.adjacency u).getD []
  · rw [if_pos hv] at h
    rcases hlink : JsMap.get m.links (u ++ "-" ++ v) with _ | l
    · rw [hlink] at h
      exact absurd h (by simp)
    · rw [hlink] at h
      dsimp only at h
      by_cases hact : l.active = true
      · rw [if_pos hact] at h
        exact ⟨hv, l, rfl, hact, (Option.some_injective ℚ h).symm⟩
      · rw [if_neg hact] at h
        exact absurd h (by simp)
  · rw [if_neg hv] at h
    exact absurd h (by simp)

theorem getD_mem_inv {adj : JsMap String (List String)} {cur y : String}
    (h : y ∈ (JsMap.get adj cur).getD []) :
    ∃ s, JsMap.get adj cur = some s ∧ y ∈ s := by
  rcases hg : JsMap.get adj cur with _ | s
  · rw [hg] at h
    simp at h
  · rw [hg] at h
    exact ⟨s, rfl, by simpa using h⟩

theorem relax_cases (m : SpaceMesh) (opt : OptimizeFor) (cur : String)
    (st : DState) (nb : String) :
    relax m opt cur st nb = st ∨
    ∃ link dcur,
      nb ∉ st.visited ∧
      JsMap.get m.links (cur ++ "-" ++ nb) = some link ∧ link.active = true ∧
      JsMap.get st.distances cur = some (some dcur) ∧
      (JsMap.get st.distances nb = some Option.none ∨
        ∃ dnb, JsMap.get st.distances nb = some (some dnb) ∧
          dcur + linkWeight opt link < dnb) ∧
      relax m opt cur st nb =
        ⟨JsMap.set st.distances nb (some (dcur + linkWeight opt link)),
          JsMap.set st.predecessors nb (some cur), st.visited,
          st.pq ++ [⟨dcur + linkWeight opt link, nb⟩]⟩ := by
  by_cases h1 : nb ∈ st.visited
  · left
    simp only [relax, if_pos h1]
  rcases hlink : JsMap.get m.links (cur ++ "-" ++ nb) with _ | link
  · left
    simp only [relax, if_neg h1, hlink]
  by_cases hact : link.active = true
  case neg =>
    left
    have hf : link.active = false := by
      simpa using hact
    simp only [relax, if_neg h1, hlink, hf, if_pos]
  rcases hdc : JsMap.get st.distances cur with _ | odc
  · left
    simp only [relax, if_neg h1, hlink, hdc]
    rw [if_neg (by simp [hact])]
  rcases odc with _ | dcur
  · left
    simp only [relax, if_neg h1, hlink, hdc]
    rw [if_neg (by simp [hact])]
  rcases hdnb : JsMap.get st.distances nb with _ | odnb
  · left
    simp only [relax, if_neg h1, hlink, hdc, hdnb]
    rw [if_neg (by simp [hact])]
    simp
  rcases odnb with _ | dnb
  · right
    refine ⟨link, dcur, h1, rfl, hact, rfl, Or.inl rfl, ?_⟩
    simp only [relax, if_neg h1, hlink, hdc, hdnb]
    rw [if_neg (by simp [hact])]
    simp
  by_cases hlt : dcur + linkWeight opt link < dnb
  · right
    refine ⟨link, dcur, h1, rfl, hact, rfl, Or.inr ⟨dnb, rfl, hlt⟩, ?_⟩
    simp only [relax, if_neg h1, hlink, hdc, hdnb]
    rw [if_neg (by simp [hact])]
    simp [hlt]
  · left
    simp only [relax, if_neg h1, hlink, hdc, hdnb]
    rw [if_neg (by simp [hact])]
    simp [hlt]

theorem relax_visited (m : SpaceMesh) (opt : OptimizeFor) (cur : String)
    (st : DState) (nb : String) : (relax m opt cur st nb).visited = st.visited := by
  rcases relax_cases m opt cur st nb with h | ⟨link, dcur, _, _, _, _, _, hupd⟩
  · rw [h]
  · rw [hupd]

theorem relax_pq_super (m : SpaceMesh) (opt : OptimizeFor) (cur : String)
    (st : DState) (nb : String) :
    ∀ e ∈ st.pq, e ∈ (relax m opt cur st nb).pq := by
  rcases relax_cases m opt cur st nb with h | ⟨link, dcur, _, _, _, _, _, hupd⟩
  · rw [h]
    exact fun e he => he
  · rw [hupd]
    exact fun e he => List.mem_append_left _ he

theorem relax_pq_len (m : SpaceMesh) (opt : OptimizeFor) (cur : String)
    (st : DState) (nb : String) :
    (relax m opt cur st nb).pq.length ≤ st.pq.length + 1 := by
  rcases relax_cases m opt cur st nb with h | ⟨link, dcur, _, _, _, _, _, hupd⟩
  · rw [h]
    exact Nat.le_succ _
  · rw [hupd]
    simp

theorem relax_mono (m : SpaceMesh) (opt : OptimizeFor) (cur : String)
    (st : DState) (nb : String) :
    ∀ u, dLE (JsMap.get (relax m opt cur st nb).distances u)
      (JsMap.get st.distances u) := by
  intro u
  rcases relax_cases m opt cur st nb with h | ⟨link, dcur, hnbv, hlink, hact, hdc, hbet, hupd⟩
  · rw [h]
    exact dLE_refl _
  · rw [hupd]
    dsimp only
    by_cases hu : u = nb
    · subst hu
      rw [JsMap.get_set_self]
      rcases hbet with hb | ⟨dnb, hb, hlt⟩
      · rw [hb]
        simp [dLE]
      · rw [hb]
        simpa [dLE] using le_of_lt hlt
    · rw [JsMap.get_set_ne st.distances nb u _ hu]
      exact dLE_refl _

theorem relax_dist_visited (m : SpaceMesh) (opt : OptimizeFor) (cur : String)
    (st : DState) (nb : String) :
    ∀ x ∈ st.visited,
      JsMap.get (relax m opt cur st nb).distances x = JsMap.get st.distances x := by
  intro x hx
  rcases relax_cases m opt cur st nb with h | ⟨link, dcur, hnbv, _, _, _, _, hupd⟩
  · rw [h]
  · have hxnb : x ≠ nb := fun h => hnbv (h ▸ hx)
    rw [hupd]
    dsimp only
    rw [JsMap.get_set_ne st.distances nb x _ hxnb]

theorem relax_core {m : SpaceMesh} {opt : OptimizeFor} {source cur : String}
    {st : DState} {nb : String} (hwf : MeshWF m opt)
    (hcur : cur ∈ st.visited)
    (hnb : nb ∈ (JsMap.get m.adjacency cur).getD [])
    (hinv : DCore m opt source st) :
    DCore m opt source (relax m opt cur st nb) := by
  rcases relax_cases m opt cur st nb with h | ⟨link, dcur, hnbv, hlink, hact, hdc, hbet, hupd⟩
  · rw [h]
    exact hinv
  · have hsrcvis : source ∈ st.visited := by
      rcases hinv.srcVis with h | ⟨hemp, _, _⟩
      · exact h
      · rw [hemp] at hcur
        exact absurd hcur (List.not_mem_nil cur)
    have hnbsrc : nb ≠ source := fun h => hnbv (h ▸ hsrcvis)
    have hcurnb : cur ≠ nb := fun h => hnbv (h ▸ hcur)
    have hedge : edgeW m opt cur nb = some (linkWeight opt link) :=
      edgeW_intro hnb hlink hact
    have hnbkeys : nb ∈ JsMap.keys m.nodes := by
      obtain ⟨s, hs, hys⟩ := getD_mem_inv hnb
      exact hwf.adjReg cur s hs nb hys
    rw [hupd]
    refine { keysD := ?_, keysP := ?_, srcD := ?_, srcP := ?_, srcVis := ?_,
             nodupV := hinv.nodupV, visReg := hinv.visReg, visFin := ?_,
             finW := ?_, predChain := ?_, visMin := ?_, pqGE := ?_, frontier := ?_ }
    · intro y
      dsimp only
      by_cases hy : y = nb
      · subst hy
        rw [JsMap.get_set_self]
        exact ⟨fun _ => hnbkeys, fun _ => ⟨_, rfl⟩⟩
      · rw [JsMap.get_set_ne st.distances nb y _ hy]
        exact hinv.keysD y
    · intro y
      dsimp only
      by_cases hy : y = nb
      · subst hy
        rw [JsMap.get_set_self]
        exact ⟨fun _ => hnbkeys, fun _ => ⟨_, rfl⟩⟩
      · rw [JsMap.get_set_ne st.predecessors nb y _ hy]
        exact hinv.keysP y
    · dsimp only
      rw [JsMap.get_set_ne st.distances nb source _ hnbsrc.symm]
      exact hinv.srcD
    · dsimp only
      rw [JsMap.get_set_ne st.predecessors nb source _ hnbsrc.symm]
      exact hinv.srcP
    · exact Or.inl hsrcvis
    · intro u hu
      dsimp only at hu ⊢
      have hunb : u ≠ nb := fun h => hnbv (h ▸ hu)
      rw [JsMap.get_set_ne st.distances nb u _ hunb]
      exact hinv.visFin u hu
    · intro u d hd
      dsimp only at hd
      by_cases hu : u = nb
      · subst hu
        rw [JsMap.get_set_self] at hd
        have hdd : dcur + linkWeight opt link = d :=
          Option.some.inj (Option.some.inj hd)
        rw [← hdd]
        exact walk_extend (hinv.finW cur dcur hdc) hedge
      · rw [JsMap.get_set_ne st.distances nb u _ hu] at hd
        exact hinv.finW u d hd
    · intro u d hd husrc
      dsimp only at hd ⊢
      by_cases hu : u = nb
      · subst hu
        rw [JsMap.get_set_self] at hd
        have hdd : dcur + linkWeight opt link = d :=
          Option.some.inj (Option.some.inj hd)
        refine ⟨cur, dcur, linkWeight opt link, ?_, ?_, hedge, hdd.symm, hcur, ?_⟩
        · rw [JsMap.get_set_self]
        · rw [JsMap.get_set_ne st.distances u cur _ hcurnb]
          exact hdc
        · intro hvis
          exact absurd hvis hnbv
      · rw [JsMap.get_set_ne st.distances nb u _ hu] at hd
        obtain ⟨p, dp, c, hp1, hp2, hp3, hp4, hp5, hp6⟩ := hinv.predChain u d hd husrc
        have hpnb : p ≠ nb := fun h => hnbv (h ▸ hp5)
        refine ⟨p, dp, c, ?_, ?_, hp3, hp4, hp5, hp6⟩
        · rw [JsMap.get_set_ne st.predecessors nb u _ hu]
          exact hp1
        · rw [JsMap.get_set_ne st.distances nb p _ hpnb]
          exact hp2
    · intro u hu d hd c hc
      dsimp only at hu hd
      have hunb : u ≠ nb := fun h => hnbv (h ▸ hu)
      rw [JsMap.get_set_ne st.distances nb u _ hunb] at hd
      exact hinv.visMin u hu d hd c hc
    · intro e he
      dsimp only at he ⊢
      rcases List.mem_append.mp he with he1 | he1
      · obtain ⟨d0, hd0, hde⟩ := hinv.pqGE e he1
        by_cases henb : e.nodeId = nb
        · rw [henb] at hd0 ⊢
          rcases hbet with hb | ⟨dnb, hb, hlt⟩
          · rw [hb] at hd0
            exact absurd hd0 (by simp)
          · rw [hb] at hd0
            have hdnb : dnb = d0 := Option.some.inj (Option.some.inj hd0)
            refine ⟨dcur + linkWeight opt link, ?_, ?_⟩
            · rw [JsMap.get_set_self]
            · exact le_trans (le_of_lt hlt) (hdnb ▸ hde)
        · refine ⟨d0, ?_, hde⟩
          rw [JsMap.get_set_ne st.distances nb e.nodeId _ henb]
          exact hd0
      · have he2 : e = ⟨dcur + linkWeight opt link, nb⟩ := by
          simpa using he1
        rw [he2]
        dsimp only
        refine ⟨dcur + linkWeight opt link, ?_, le_refl _⟩
        rw [JsMap.get_set_self]
    · intro y hy dy hdy
      dsimp only at hy hdy ⊢
      by_cases hynb : y = nb
      · subst hynb
        rw [JsMap.get_set_self] at hdy
        have hdd : dcur + linkWeight opt link = dy :=
          Option.some.inj (Option.some.inj hdy)
        refine ⟨⟨dcur + linkWeight opt link, y⟩, ?_, rfl, hdd⟩
        exact List.mem_append_right _ (by simp)
      · rw [JsMap.get_set_ne st.distances nb y _ hynb] at hdy
        obtain ⟨e, he, hen, hed⟩ := hinv.frontier y hy dy hdy
        exact ⟨e, List.mem_append_left _ he, hen, hed⟩

theorem relax_self_bound {m : SpaceMesh} {opt : OptimizeFor} {cur nb : String}
    {st : DState} {w dcur : ℚ}
    (hnbv : nb ∉ st.visited) (he : edgeW m opt cur nb = some w)
    (hdc : JsMap.get st.distances cur = some (some dcur))
    (hkey : ∃ dv, JsMap.get st.distances nb = some dv) :
    ∃ d1, JsMap.get (relax m opt cur st nb).distances nb = some (some d1) ∧
      d1 ≤ dcur + w := by
  obtain ⟨hadj, link, hlink, hact, hw⟩ := edgeW_elim he
  obtain ⟨dv, hdv⟩ := hkey
  unfold relax
  rw [if_neg hnbv, hlink]
  dsimp only
  rw [if_neg (by simp [hact] : ¬ link.active = false), hdc]
  dsimp only
  rw [hdv]
  rcases dv with _ | dnb
  · dsimp only
    refine ⟨dcur + linkWeight opt link, ?_, by rw [hw]⟩
    rw [if_pos rfl]
    dsimp only
    rw [JsMap.get_set_self]
  · dsimp only
    by_cases hlt : dcur + linkWeight opt link < dnb
    · rw [if_pos (by simp [hlt])]
      refine ⟨dcur + linkWeight opt link, ?_, by rw [hw]⟩
      dsimp only
      rw [JsMap.get_set_self]
    · rw [if_neg (by simp [hlt])]
      refine ⟨dnb, hdv, ?_⟩
      rw [hw]
      exact le_of_not_lt hlt

theorem foldl_relax_visited (m : SpaceMesh) (opt : OptimizeFor) (cur : String) :
    ∀ (ns : List String) (st : DState),
      (List.foldl (relax m opt cur) st ns).visited = st.visited := by
  intro ns
  induction ns with
  | nil => intro st; rfl
  | cons nb rest ih =>
    intro st
    rw [List.foldl_cons, ih, relax_visited]

theorem foldl_relax_mono (m : SpaceMesh) (opt : OptimizeFor) (cur : String) :
    ∀ (ns : List String) (st : DState) (u : String),
      dLE (JsMap.get (List.foldl (relax m opt cur) st ns).distances u)
        (JsMap.get st.distances u) := by
  intro ns
  induction ns with
  | nil => intro st u; exact dLE_refl _
  | cons nb rest ih =>
    intro st u
    rw [List.foldl_cons]
    exact dLE_trans (ih _ u) (relax_mono m opt cur st nb u)

theorem foldl_relax_dist_visited (m : SpaceMesh) (opt : OptimizeFor) (cur : String) :
    ∀ (ns : List String) (st : DState), ∀ x ∈ st.visited,
      JsMap.get (List.foldl (relax m opt cur) st ns).distances x =
        JsMap.get st.distances x := by
  intro ns
  induction ns with
  | nil => intro st x _; rfl
  | cons nb rest ih =>
    intro st x hx
    rw [List.foldl_cons]
    have hx1 : x ∈ (relax m opt cur st nb).visited := by
      rw [relax_visited]
      exact hx
    rw [ih _ x hx1, relax_dist_visited m opt cur st nb x hx]

theorem foldl_relax_pq_super (m : SpaceMesh) (opt : OptimizeFor) (cur : String) :
    ∀ (ns : List String) (st : DState), ∀ e ∈ st.pq,
      e ∈ (List.foldl (relax m opt cur) st ns).pq := by
  intro ns
  induction ns with
  | nil => intro st e he; exact he
  | cons nb rest ih =>
    intro st e he
    rw [List.foldl_cons]
    exact ih _ e (relax_pq_super m opt cur st nb e he)

theorem foldl_relax_pq_len (m : SpaceMesh) (opt : OptimizeFor) (cur : String) :
    ∀ (ns : List String) (st : DState),
      (List.foldl (relax m opt cur) st ns).pq.length ≤ st.pq.length + ns.length := by
  intro ns
  induction ns with
  | nil => intro st; simp
  | cons nb rest ih =>
    intro st
    rw [List.foldl_cons]
    have h1 := ih (relax m opt cur st nb)
    have h2 := relax_pq_len m opt cur st nb
    simp only [List.length_cons]
    omega

theorem foldl_relax_core {m : SpaceMesh} {opt : OptimizeFor} {source cur : String}
    (hwf : MeshWF m opt) :
    ∀ (ns : List String) (st : DState), cur ∈ st.visited →
      (∀ x ∈ ns, x ∈ (JsMap.get m.adjacency cur).getD []) →
      DCore m opt source st →
      DCore m opt source (List.foldl (relax m opt cur) st ns) := by
  intro ns
  induction ns with
  | nil => intro st _ _ h; exact h
  | cons nb rest ih =>
    intro st hcur hns hinv
    rw [List.foldl_cons]
    refine ih _ ?_ (fun x hx => hns x (List.mem_cons_of_mem nb hx)) ?_
    · rw [relax_visited]
      exact hcur
    · exact relax_core hwf hcur (hns nb (List.mem_cons_self nb rest)) hinv

theorem relaxedOutOn_mono {m : SpaceMesh} {opt : OptimizeFor} {V : List String}
    {st st' : DState}
    (hV : ∀ x ∈ V, JsMap.get st'.distances x = JsMap.get st.distances x)
    (hmono : ∀ u, dLE (JsMap.get st'.distances u) (JsMap.get st.distances u))
    (h : relaxedOutOn m opt V st) : relaxedOutOn m opt V st' := by
  intro x hx dx hdx y w he
  rw [hV x hx] at hdx
  obtain ⟨dy, hdy, hle⟩ := h x hx dx hdx y w he
  have hm := hmono y
  rw [hdy] at hm
  obtain ⟨dy', hdy', hle'⟩ := dLE_fin hm
  exact ⟨dy', hdy', le_trans hle' hle⟩

theorem foldl_relax_bound {m : SpaceMesh} {opt : OptimizeFor} {source cur : String}
    (hwf : MeshWF m opt) (dcur : ℚ) :
    ∀ (ns : List String) (st : DState), DCore m opt source st → cur ∈ st.visited →
      JsMap.get st.distances cur = some (some dcur) →
      (∀ x ∈ ns, x ∈ (JsMap.get m.adjacency cur).getD []) →
      ∀ y ∈ ns, y ∉ st.visited → ∀ w, edgeW m opt cur y = some w →
        ∃ dy, JsMap.get (List.foldl (relax m opt cur) st ns).distances y =
          some (some dy) ∧ dy ≤ dcur + w := by
  intro ns
  induction ns with
  | nil =>
    intro st _ _ _ _ y hy
    exact absurd hy (List.not_mem_nil y)
  | cons nb rest ih =>
    intro st hcore hcur hdc hns y hy hyv w he
    rw [List.foldl_cons]
    rcases List.mem_cons.mp hy with hy1 | hy1
    · rw [hy1] at hyv he ⊢
      have hkey : ∃ dv, JsMap.get st.distances nb = some dv := by
        have hyk : nb ∈ JsMap.keys m.nodes := by
          obtain ⟨s, hs, hys⟩ := getD_mem_inv (edgeW_elim he).1
          exact hwf.adjReg cur s hs nb hys
        exact (hcore.keysD nb).mpr hyk
      obtain ⟨d1, hd1, hb1⟩ := relax_self_bound hyv he hdc hkey
      have hm := foldl_relax_mono m opt cur rest (relax m opt cur st nb) nb
      rw [hd1] at hm
      obtain ⟨dy', hdy', hle'⟩ := dLE_fin hm
      exact ⟨dy', hdy', le_trans hle' hb1⟩
    · have hcore1 : DCore m opt source (relax m opt cur st nb) :=
        relax_core hwf hcur (hns nb (List.mem_cons_self nb rest)) hcore
      have hcur1 : cur ∈ (relax m opt cur st nb).visited := by
        rw [relax_visited]
        exact hcur
      have hdc1 : JsMap.get (relax m opt cur st nb).distances cur = some (some dcur) := by
        rw [relax_dist_visited m opt cur st nb cur hcur]
        exact hdc
      exact ih (relax m opt cur st nb) hcore1 hcur1 hdc1
        (fun x hx => hns x (List.mem_cons_of_mem nb hx)) y hy1
        (by rw [relax_visited]; exact hyv) w he

theorem dijkstraLoop_spec {m : SpaceMesh} {opt : OptimizeFor} {source dest : String}
    (hwf : MeshWF m opt) :
    ∀ (fuel : ℕ) (st : DState), DCore m opt source st →
      relaxedOutOn m opt st.visited st →
      st.pq.length + unvisAdj m st.visited ≤ fuel →
      DCore m opt source (dijkstraLoop m opt dest fuel st) ∧
      (dest ∈ (dijkstraLoop m opt dest fuel st).visited ∨
        ((dijkstraLoop m opt dest fuel st).pq = [] ∧
          relaxedOutOn m opt (dijkstraLoop m opt dest fuel st).visited
            (dijkstraLoop m opt dest fuel st))) ∧
      (∀ x ∈ st.visited, x ∈ (dijkstraLoop m opt dest fuel st).visited) := by
  intro fuel
  induction fuel with
  | zero =>
    intro st hcore hrel hfuel
    have hpq : st.pq = [] := List.length_eq_zero.mp (by omega)
    rw [dijkstraLoop]
    exact ⟨hcore, Or.inr ⟨hpq, hrel⟩, fun x hx => hx⟩
  | succ fuel ih =>
    intro st hcore hrel hfuel
    rcases hsort : st.pq.insertionSort pqLE with _ | ⟨e, rest⟩
    · have hpq : st.pq = [] := by
        have hperm := st.pq.perm_insertionSort pqLE
        rw [hsort] at hperm
        exact hperm.symm.eq_nil
      rw [dijkstraLoop, hsort]
      exact ⟨hcore, Or.inr ⟨hpq, hrel⟩, fun x hx => hx⟩
    · obtain ⟨hemem, hmin, hsub, hrest, hlen⟩ := insertionSort_pop hsort
      rw [dijkstraLoop, hsort]
      dsimp only
      by_cases hv : e.nodeId ∈ st.visited
      · rw [if_pos hv]
        have hcore1 : DCore m opt source ⟨st.distances, st.predecessors, st.visited, rest⟩ := by
          refine { keysD := hcore.keysD, keysP := hcore.keysP, srcD := hcore.srcD,
                   srcP := hcore.srcP, srcVis := ?_, nodupV := hcore.nodupV,
                   visReg := hcore.visReg, visFin := hcore.visFin, finW := hcore.finW,
                   predChain := hcore.predChain, visMin := hcore.visMin,
                   pqGE := ?_, frontier := ?_ }
          · left
            rcases hcore.srcVis with h | ⟨hemp, _, _⟩
            · exact h
            · rw [hemp] at hv
              exact absurd hv (List.not_mem_nil _)
          · intro e' he'
            exact hcore.pqGE e' (hrest e' he')
          · intro y hy dy hdy
            obtain ⟨e', he', hen', hed'⟩ := hcore.frontier y hy dy hdy
            rcases hsub e' he' with h1 | h1
            · rw [h1] at hen'
              exact absurd (hen' ▸ hv) hy
            · exact ⟨e', h1, hen', hed'⟩
        have hfuel1 : rest.length + unvisAdj m st.visited ≤ fuel := by omega
        exact ih ⟨st.distances, st.predecessors, st.visited, rest⟩ hcore1 hrel hfuel1
      · rw [if_neg hv]
        obtain ⟨de, hde, hdele⟩ := hcore.pqGE e hemem
        obtain ⟨e', he', hen', hed'⟩ := hcore.frontier e.nodeId hv de hde
        have hedist : e.dist = de := le_antisymm (hed' ▸ hmin e' he') hdele
        have hsettle : ∀ c, Walk m opt source e.nodeId c → de ≤ c := by
          intro c hc
          by_cases hes : e.nodeId = source
          · rw [hes] at hde
            rw [hcore.srcD] at hde
            have h0 : de = 0 := (Option.some.inj (Option.some.inj hde)).symm
            rw [h0]
            exact walk_nonneg hwf hc
          · have hsrcv : source ∈ st.visited := by
              rcases hcore.srcVis with h | ⟨_, _, hall⟩
              · exact h
              · exact absurd ((hall e hemem).1) hes
            obtain ⟨x, y, wxy, c1, c2, hx, hy, hexy, hwalk, hcsum, hc2⟩ :=
              walk_cross hwf st.visited hc hsrcv hv
            obtain ⟨dx, hdx⟩ := hcore.visFin x hx
            have hxc1 : dx ≤ c1 := hcore.visMin x hx dx hdx c1 hwalk
            obtain ⟨dy, hdy, hdyle⟩ := hrel x hx dx hdx y wxy hexy
            obtain ⟨ey, hey, heyn, heyd⟩ := hcore.frontier y hy dy hdy
            have h1 : e.dist ≤ dy := heyd ▸ hmin ey hey
            rw [← hedist, hcsum]
            calc e.dist ≤ dy := h1
              _ ≤ dx + wxy := hdyle
              _ ≤ c1 + wxy + c2 := by linarith
        have hst2core : DCore m opt source
            ⟨st.distances, st.predecessors, st.visited ++ [e.nodeId], rest⟩ := by
          refine { keysD := hcore.keysD, keysP := hcore.keysP, srcD := hcore.srcD,
                   srcP := hcore.srcP, srcVis := ?_, nodupV := ?_, visReg := ?_,
                   visFin := ?_, finW := hcore.finW, predChain := ?_, visMin := ?_,
                   pqGE := ?_, frontier := ?_ }
          · left
            rcases hcore.srcVis with h | ⟨hemp, _, hall⟩
            · exact List.mem_append_left _ h
            · rw [hemp]
              simp [((hall e hemem).1).symm]
          · rw [List.nodup_append]
            exact ⟨hcore.nodupV, List.nodup_singleton _,
              fun x hx hx1 => hv ((List.mem_singleton.mp hx1) ▸ hx)⟩
          · intro u hu
            rcases List.mem_append.mp hu with h1 | h1
            · exact hcore.visReg u h1
            · rw [List.mem_singleton.mp h1]
              exact (hcore.keysD e.nodeId).mp ⟨_, hde⟩
          · intro u hu
            rcases List.mem_append.mp hu with h1 | h1
            · exact hcore.visFin u h1
            · rw [List.mem_singleton.mp h1]
              exact ⟨de, hde⟩
          · intro u d hd husrc
            obtain ⟨p, dp, c, hp1, hp2, hp3, hp4, hp5, hp6⟩ :=
              hcore.predChain u d hd husrc
            refine ⟨p, dp, c, hp1, hp2, hp3, hp4, List.mem_append_left _ hp5, ?_⟩
            intro hu
            rcases List.mem_append.mp hu with h1 | h1
            · rw [indexOf_append_left st.visited [e.nodeId] p hp5,
                indexOf_append_left st.visited [e.nodeId] u h1]
              exact hp6 h1
            · rw [List.mem_singleton.mp h1, indexOf_append_self st.visited e.nodeId hv,
                indexOf_append_left st.visited [e.nodeId] p hp5]
              exact List.indexOf_lt_length.mpr hp5
          · intro u hu d hd c hc
            rcases List.mem_append.mp hu with h1 | h1
            · exact hcore.visMin u h1 d hd c hc
            · have hue : u = e.nodeId := List.mem_singleton.mp h1
              rw [hue] at hd hc
              rw [hde] at hd
              have hdd : de = d := Option.some.inj (Option.some.inj hd)
              rw [← hdd]
              exact hsettle c hc
          · intro e2 he2
            exact hcore.pqGE e2 (hrest e2 he2)
          · intro y hy dy hdy
            have hy1 : y ∉ st.visited := fun h => hy (List.mem_append_left _ h)
            have hy2 : y ≠ e.nodeId := fun h => hy (List.mem_append_right _ (by simp [h]))
            obtain ⟨e2, he2, hen2, hed2⟩ := hcore.frontier y hy1 dy hdy
            rcases hsub e2 he2 with h1 | h1
            · rw [h1] at hen2
              exact absurd hen2.symm hy2
            · exact ⟨e2, h1, hen2, hed2⟩
        by_cases hdd : e.nodeId = dest
        · rw [if_pos hdd]
          refine ⟨hst2core, Or.inl ?_, fun x hx => List.mem_append_left _ hx⟩
          dsimp only
          rw [← hdd]
          exact List.mem_append_right _ (by simp)
        · rw [if_neg hdd]
          have hcur2 : e.nodeId ∈ st.visited ++ [e.nodeId] :=
            List.mem_append_right _ (by simp)
          have hde2 : JsMap.get (⟨st.distances, st.predecessors,
              st.visited ++ [e.nodeId], rest⟩ : DState).distances e.nodeId =
              some (some de) := hde
          have hcore' : DCore m opt source
              (List.foldl (relax m opt e.nodeId)
                ⟨st.distances, st.predecessors, st.visited ++ [e.nodeId], rest⟩
                ((JsMap.get m.adjacency e.nodeId).getD [])) :=
            foldl_relax_core hwf _ _ hcur2 (fun x hx => hx) hst2core
          have hvis' : (List.foldl (relax m opt e.nodeId)
              ⟨st.distances, st.predecessors, st.visited ++ [e.nodeId], rest⟩
              ((JsMap.get m.adjacency e.nodeId).getD [])).visited =
              st.visited ++ [e.nodeId] :=
            foldl_relax_visited m opt e.nodeId _ _
          have hrel' : relaxedOutOn m opt (st.visited ++ [e.nodeId])
              (List.foldl (relax m opt e.nodeId)
                ⟨st.distances, st.predecessors, st.visited ++ [e.nodeId], rest⟩
                ((JsMap.get m.adjacency e.nodeId).getD [])) := by
            intro x hx dx hdx y w he
            rcases List.mem_append.mp hx with hx1 | hx1
            · have hold : relaxedOutOn m opt st.visited
                  (List.foldl (relax m opt e.nodeId)
                    ⟨st.distances, st.predecessors, st.visited ++ [e.nodeId], rest⟩
                    ((JsMap.get m.adjacency e.nodeId).getD [])) := by
                refine relaxedOutOn_mono ?_ ?_ hrel
                · intro z hz
                  exact foldl_relax_dist_visited m opt e.nodeId _ _ z
                    (List.mem_append_left _ hz)
                · intro u
                  exact foldl_relax_mono m opt e.nodeId _ _ u
              exact hold x hx1 dx hdx y w he
            · rw [List.mem_singleton.mp hx1] at hdx
              have hdcur' : JsMap.get (List.foldl (relax m opt e.nodeId)
                  ⟨st.distances, st.predecessors, st.visited ++ [e.nodeId], rest⟩
                  ((JsMap.get m.adjacency e.nodeId).getD [])).distances e.nodeId =
                  some (some de) := by
                rw [foldl_relax_dist_visited m opt e.nodeId _ _ e.nodeId hcur2]
                exact hde
              rw [hdcur'] at hdx
              have hdxde : de = dx := Option.some.inj (Option.some.inj hdx)
              rw [List.mem_singleton.mp hx1] at he
              by_cases hyv : y ∈ st.visited ++ [e.nodeId]
              · obtain ⟨dy, hdy⟩ := hcore'.visFin y (by rw [hvis']; exact hyv)
                refine ⟨dy, hdy, ?_⟩
                have hwalk : Walk m opt source y (de + w) :=
                  walk_extend (hcore'.finW e.nodeId de hdcur') he
                have := hcore'.visMin y (by rw [hvis']; exact hyv) dy hdy (de + w) hwalk
                rw [← hdxde]
                exact this
              · obtain ⟨dy, hdy, hdyle⟩ := foldl_relax_bound hwf de
                  ((JsMap.get m.adjacency e.nodeId).getD [])
                  ⟨st.distances, st.predecessors, st.visited ++ [e.nodeId], rest⟩
                  hst2core hcur2 hde2 (fun x hx => hx) y (edgeW_elim he).1 hyv w he
                refine ⟨dy, hdy, ?_⟩
                rw [← hdxde]
                exact hdyle
          have hfuel' : (List.foldl (relax m opt e.nodeId)
              ⟨st.distances, st.predecessors, st.visited ++ [e.nodeId], rest⟩
              ((JsMap.get m.adjacency e.nodeId).getD [])).pq.length +
              unvisAdj m (st.visited ++ [e.nodeId]) ≤ fuel := by
            have h1 := foldl_relax_pq_len m opt e.nodeId
              ((JsMap.get m.adjacency e.nodeId).getD [])
              ⟨st.distances, st.predecessors, st.visited ++ [e.nodeId], rest⟩
            have h2 := unvisAdjL_settle hv m.adjacency
            have heq : unvisAdj m st.visited = unvisAdjL st.visited m.adjacency := rfl
            unfold unvisAdj
            dsimp only at h1
            omega
          obtain ⟨hA, hB, hC⟩ := ih _ hcore' (by rw [hvis']; exact hrel')
            (by rw [hvis']; exact hfuel')
          refine ⟨hA, hB, fun x hx => ?_⟩
          exact hC x (by rw [hvis']; exact List.mem_append_left _ hx)

theorem walk_closed {m : SpaceMesh} {opt : OptimizeFor} {source : String}
    {st : DState} (hcore : DCore m opt source st) (hpq : st.pq = [])
    (hrel : relaxedOutOn m opt st.visited st) :
    ∀ {u t : String} {c : ℚ}, Walk m opt u t c → u ∈ st.visited →
      t ∈ st.visited := by
  intro u t c h
  induction h with
  | nil a => intro ha; exact ha
  | @cons u v t w c he _ ih =>
    intro hu
    obtain ⟨du, hdu⟩ := hcore.visFin u hu
    obtain ⟨dv, hdv, _⟩ := hrel u hu du hdu v w he
    by_cases hv : v ∈ st.visited
    · exact ih hv
    · obtain ⟨e, hepq, _, _⟩ := hcore.frontier v hv dv hdv
      rw [hpq] at hepq
      exact absurd hepq (List.not_mem_nil e)

theorem listWalkCost_append {m : SpaceMesh} {opt : OptimizeFor} :
    ∀ (p : List String) (v u : String) (cp w : ℚ),
      p.getLast? = some v → listWalkCost m opt p = some cp →
      edgeW m opt v u = some w →
      listWalkCost m opt (p ++ [u]) = some (cp + w) := by
  intro p
  induction p with
  | nil =>
    intro v u cp w hlast
    exact absurd hlast (by simp)
  | cons x t ih =>
    intro v u cp w hlast hcost hedge
    rcases t with _ | ⟨y, t'⟩
    · rw [List.getLast?_singleton] at hlast
      have hv : x = v := Option.some.inj hlast
      have hcp : (0 : ℚ) = cp := Option.some.inj hcost
      subst hv
      show listWalkCost m opt [x, u] = some (cp + w)
      rw [listWalkCost, hedge]
      have h0 : listWalkCost m opt [u] = some 0 := rfl
      rw [h0]
      dsimp only
      rw [← hcp]
      norm_num
    · have hlast' : (y :: t').getLast? = some v := by
        rw [← List.getLast?_cons_cons]
        exact hlast
      rw [listWalkCost] at hcost
      rcases hxy : edgeW m opt x y with _ | w1
      · rw [hxy] at hcost
        exact absurd hcost (by simp)
      rcases hrest : listWalkCost m opt (y :: t') with _ | c1
      · rw [hxy, hrest] at hcost
        exact absurd hcost (by simp)
      rw [hxy, hrest] at hcost
      dsimp only at hcost
      have hcp : w1 + c1 = cp := Option.some.inj hcost
      have ihr := ih v u c1 w hlast' hrest hedge
      rw [List.cons_append] at ihr
      show listWalkCost m opt (x :: ((y :: t') ++ [u])) = some (cp + w)
      rw [List.cons_append, listWalkCost, hxy, ihr]
      dsimp only
      rw [← hcp]
      congr 1
      ring

theorem reconstructPath_spec {m : SpaceMesh} {opt : OptimizeFor} {source : String}
    {st : DState} (hcore : DCore m opt source st) :
    ∀ (fuel : ℕ) (u : String) (du : ℚ), u ∈ st.visited →
      st.visited.indexOf u < fuel →
      JsMap.get st.distances u = some (some du) →
      (reconstructPath st.predecessors fuel u).head? = some source ∧
      (reconstructPath st.predecessors fuel u).getLast? = some u ∧
      listWalkCost m opt (reconstructPath st.predecessors fuel u) = some du := by
  intro fuel
  induction fuel with
  | zero =>
    intro u du _ hidx
    exact absurd hidx (Nat.not_lt_zero _)
  | succ fuel ih =>
    intro u du hu hidx hdu
    by_cases hus : u = source
    · subst hus
      have hdu0 : (0 : ℚ) = du := by
        rw [hcore.srcD] at hdu
        exact Option.some.inj (Option.some.inj hdu)
      rw [reconstructPath, hcore.srcP]
      simp only [Option.getD_some]
      exact ⟨by simp, by simp, by rw [← hdu0]; rfl⟩
    · obtain ⟨p, dp, c, hp1, hp2, hp3, hp4, hp5, hp6⟩ :=
        hcore.predChain u du hdu hus
      have hidxp : st.visited.indexOf p < fuel := by
        have := hp6 hu
        omega
      obtain ⟨hh, hl, hc⟩ := ih p dp hp5 hidxp hp2
      rw [reconstructPath, hp1]
      simp only [Option.getD_some]
      refine ⟨?_, ?_, ?_⟩
      · rcases hP : reconstructPath st.predecessors fuel p with _ | ⟨a, l⟩
        · rw [hP] at hh
          exact absurd hh (by simp)
        · rw [hP] at hh
          simp at hh
          simp [hh]
      · exact List.getLast?_concat _
      · have := listWalkCost_append (reconstructPath st.predecessors fuel p)
          p u dp c hl hc hp3
        rw [this, hp4]

theorem metricsLat_aux (m : SpaceMesh) :
    ∀ (p : List String) (s : ℚ),
      listWalkCost m OptimizeFor.latency p = some s →
      ∀ (a b : ℚ) (bw : Option ℚ),
        ((p.zip p.tail).foldl (metricStep m) (a, b, bw)).2.1 = b + s := by
  intro p
  induction p with
  | nil =>
    intro s hs a b bw
    have h0 : (0 : ℚ) = s := Option.some.inj hs
    simp [← h0]
  | cons x t ih =>
    rcases t with _ | ⟨y, t'⟩
    · intro s hs a b bw
      have h0 : (0 : ℚ) = s := Option.some.inj hs
      simp [← h0]
    · intro s hs a b bw
      rw [listWalkCost] at hs
      rcases hxy : edgeW m OptimizeFor.latency x y with _ | w1
      · rw [hxy] at hs
        exact absurd hs (by simp)
      rcases hrest : listWalkCost m OptimizeFor.latency (y :: t') with _ | c1
      · rw [hxy, hrest] at hs
        exact absurd hs (by simp)
      rw [hxy, hrest] at hs
      dsimp only at hs
      have hcp : w1 + c1 = s := Option.some.inj hs
      obtain ⟨hadj, link, hlink, hact, hw⟩ := edgeW_elim hxy
      have hzip : (x :: y :: t').zip (x :: y :: t').tail =
          (x, y) :: ((y :: t').zip (y :: t').tail) := rfl
      rw [hzip, List.foldl_cons]
      have hstep : metricStep m (a, b, bw) (x, y) =
          (a + link.distanceKm, b + link.latencyMs,
            match bw with
            | Option.none => some link.bandwidthGbps
            | some b0 => some (min b0 link.bandwidthGbps)) := by
        unfold metricStep
        dsimp only
        rw [hlink]
      rw [hstep, ih c1 hrest _ _ _]
      rw [← hcp, hw]
      show b + link.latencyMs + c1 = b + (link.latencyMs + c1)
      ring

theorem routeMetrics_lat {m : SpaceMesh} {p : List String} {s : ℚ}
    (hs : listWalkCost m OptimizeFor.latency p = some s) :
    (routeMetrics m p).2.1 = s := by
  unfold routeMetrics
  rw [metricsLat_aux m p s hs 0 0 Option.none]
  ring

theorem JsMap.get_empty {α β : Type} [DecidableEq α] (k : α) :
    JsMap.get (JsMap.empty : JsMap α β) k = Option.none := rfl

theorem get_foldl_set_const {β γ : Type} (cv : γ) :
    ∀ (l : List (String × β)) (acc : JsMap String γ) (y : String),
      JsMap.get (l.foldl (fun dm kv => JsMap.set dm kv.1 cv) acc) y =
        if y ∈ l.map (fun kv => kv.1) then some cv else JsMap.get acc y := by
  intro l
  induction l with
  | nil => intro acc y; simp
  | cons kv rest ih =>
    intro acc y
    rw [List.foldl_cons, ih]
    by_cases hy : y ∈ rest.map (fun kv => kv.1)
    · rw [if_pos hy, if_pos (by simp [hy])]
    · rw [if_neg hy]
      by_cases hyk : y = kv.1
      · rw [if_pos (by simp [hyk]), hyk, JsMap.get_set_self]
      · rw [if_neg (by simp [hyk, hy]), JsMap.get_set_ne acc kv.1 y _ hyk]

theorem keys_eq_map (mm : JsMap String OrbitalNode) :
    mm.map (fun kv => kv.1) = JsMap.keys mm := rfl

theorem init_core {m : SpaceMesh} {opt : OptimizeFor} {source : String}
    (hs : source ∈ JsMap.keys m.nodes) :
    DCore m opt source
      ⟨JsMap.set (m.nodes.foldl (fun dm kv => JsMap.set dm kv.1 Option.none)
          JsMap.empty) source (some 0),
        m.nodes.foldl (fun pm kv => JsMap.set pm kv.1 Option.none) JsMap.empty,
        [], [⟨0, source⟩]⟩ := by
  have hD : ∀ y, JsMap.get (JsMap.set (m.nodes.foldl
      (fun dm kv => JsMap.set dm kv.1 (Option.none : Option ℚ)) JsMap.empty)
        source (some 0)) y =
      if y = source then some (some 0)
      else if y ∈ JsMap.keys m.nodes then some Option.none else Option.none := by
    intro y
    by_cases hy : y = source
    · rw [hy, JsMap.get_set_self, if_pos rfl]
    · rw [JsMap.get_set_ne _ source y _ hy, if_neg hy, get_foldl_set_const,
        keys_eq_map, JsMap.get_empty]
  have hP : ∀ y, JsMap.get (m.nodes.foldl
      (fun pm kv => JsMap.set pm kv.1 (Option.none : Option String))
        JsMap.empty) y =
      if y ∈ JsMap.keys m.nodes then some Option.none else Option.none := by
    intro y
    rw [get_foldl_set_const, keys_eq_map, JsMap.get_empty]
  refine { keysD := ?_, keysP := ?_, srcD := ?_, srcP := ?_, srcVis := ?_,
           nodupV := List.nodup_nil, visReg := ?_, visFin := ?_, finW := ?_,
           predChain := ?_, visMin := ?_, pqGE := ?_, frontier := ?_ }
  · intro y
    show (∃ dv, JsMap.get _ y = some dv) ↔ _
    rw [hD y]
    by_cases hy : y = source
    · simp [hy, hs]
    · rw [if_neg hy]
      by_cases hk : y ∈ JsMap.keys m.nodes
      · simp [hk]
      · simp [hk]
  · intro y
    show (∃ pv, JsMap.get _ y = some pv) ↔ _
    rw [hP y]
    by_cases hk : y ∈ JsMap.keys m.nodes
    · simp [hk]
    · simp [hk]
  · show JsMap.get _ source = _
    rw [hD source, if_pos rfl]
  · show JsMap.get _ source = _
    rw [hP source, if_pos hs]
  · exact Or.inr ⟨rfl, by simp,
      fun e he => by rw [List.mem_singleton.mp he]; exact ⟨rfl, rfl⟩⟩
  · intro u hu
    exact absurd hu (List.not_mem_nil u)
  · intro u hu
    exact absurd hu (List.not_mem_nil u)
  · intro u d hd
    rw [hD u] at hd
    by_cases hy : u = source
    · rw [if_pos hy] at hd
      have h0 : (0 : ℚ) = d := Option.some.inj (Option.some.inj hd)
      rw [hy, ← h0]
      exact Walk.nil source
    · rw [if_neg hy] at hd
      by_cases hk : u ∈ JsMap.keys m.nodes
      · rw [if_pos hk] at hd
        exact absurd hd (by simp)
      · rw [if_neg hk] at hd
        exact absurd hd (by simp)
  · intro u d hd hus
    rw [hD u, if_neg hus] at hd
    by_cases hk : u ∈ JsMap.keys m.nodes
    · rw [if_pos hk] at hd
      exact absurd hd (by simp)
    · rw [if_neg hk] at hd
      exact absurd hd (by simp)
  · intro u hu
    exact absurd hu (List.not_mem_nil u)
  · intro e he
    rw [List.mem_singleton.mp he]
    refine ⟨0, ?_, le_refl 0⟩
    show JsMap.get _ source = _
    rw [hD source, if_pos rfl]
  · intro y _ dy hdy
    rw [hD y] at hdy
    by_cases hy : y = source
    · rw [if_pos hy] at hdy
      have h0 : (0 : ℚ) = dy := Option.some.inj (Option.some.inj hdy)
      exact ⟨⟨0, source⟩, by simp, hy.symm, h0⟩
    · rw [if_neg hy] at hdy
      by_cases hk : y ∈ JsMap.keys m.nodes
      · rw [if_pos hk] at hdy
        exact absurd hdy (by simp)
      · rw [if_neg hk] at hdy
        exact absurd hdy (by simp)

theorem findRoute_spec {m : SpaceMesh} (hwf : MeshWF m OptimizeFor.latency)
    {source dest : String}
    (hs : JsMap.has m.nodes source = true) (hd : JsMap.has m.nodes dest = true)
    {c₀ : ℚ} (hreach : Walk m OptimizeFor.latency source dest c₀) :
    ∃ s,
      (m.findRoute source dest OptimizeFor.latency).path.head? = some source ∧
      (m.findRoute source dest OptimizeFor.latency).path.getLast? = some dest ∧
      listWalkCost m OptimizeFor.latency
        (m.findRoute source dest OptimizeFor.latency).path = some s ∧
      (m.findRoute source dest OptimizeFor.latency).totalLatencyMs = round3 s ∧
      ∀ c, Walk m OptimizeFor.latency source dest c → s ≤ c := by
  unfold SpaceMesh.findRoute
  rw [if_neg (by simp [hs, hd])]
  by_cases hsd : source = dest
  · rw [if_pos hsd]
    refine ⟨0, by simp, by simp [hsd], rfl, ?_, fun c hc => walk_nonneg hwf hc⟩
    show (0 : ℚ) = round3 0
    unfold round3 jsRound
    norm_num
  · rw [if_neg hsd]
    dsimp only
    have hsrc : source ∈ JsMap.keys m.nodes := (JsMap.has_eq_true_iff _ _).mp hs
    set initSt : DState :=
      ⟨JsMap.set (m.nodes.foldl (fun dm kv => JsMap.set dm kv.1 Option.none)
          JsMap.empty) source (some 0),
        m.nodes.foldl (fun pm kv => JsMap.set pm kv.1 Option.none) JsMap.empty,
        [], [⟨0, source⟩]⟩ with hInit
    set F := dijkstraLoop m OptimizeFor.latency dest (1 + totalAdjSize m) initSt
      with hF
    obtain ⟨hcoreF, hdisj, _⟩ := dijkstraLoop_spec hwf (1 + totalAdjSize m) initSt
      (init_core hsrc) (fun x hx => absurd hx (List.not_mem_nil x))
      (by simp [unvisAdj_nil])
    rw [← hF] at hcoreF hdisj
    have hdestv : dest ∈ F.visited := by
      rcases hdisj with h | ⟨hpq, hrelF⟩
      · exact h
      · have hsrcF : source ∈ F.visited := by
          rcases hcoreF.srcVis with h1 | ⟨_, hne, _⟩
          · exact h1
          · exact absurd hpq hne
        exact walk_closed hcoreF hpq hrelF hreach hsrcF
    obtain ⟨dd, hdd⟩ := hcoreF.visFin dest hdestv
    rw [if_neg (by rw [hdd]; simp)]
    dsimp only
    have hidx : F.visited.indexOf dest < m.nodes.length + 1 := by
      have h1 : F.visited.indexOf dest < F.visited.length :=
        List.indexOf_lt_length.mpr hdestv
      have h2 : F.visited.length ≤ (JsMap.keys m.nodes).length :=
        nodup_subset_length hcoreF.nodupV hcoreF.visReg
      have h3 : (JsMap.keys m.nodes).length = m.nodes.length := by
        simp [JsMap.keys]
      omega
    obtain ⟨hh, hl, hcost⟩ := reconstructPath_spec hcoreF (m.nodes.length + 1)
      dest dd hdestv hidx hdd
    refine ⟨dd, hh, hl, hcost, ?_,
      fun c hc => hcoreF.visMin dest hdestv dd hdd c hc⟩
    show round3 (routeMetrics m
      (reconstructPath F.predecessors (m.nodes.length + 1) dest)).2.1 = round3 dd
    rw [routeMetrics_lat hcost]

theorem calculateDistance_nonneg (g : Geom) (hg : ∀ q, 0 ≤ q → 0 ≤ g.sqrtq q)
    (n1 n2 : OrbitalNode) : 0 ≤ calculateDistance g n1 n2 := by
  unfold calculateDistance
  apply hg
  positivity

theorem topoStep_nodes (g : Geom) (m st : SpaceMesh) (pr : String × String) :
    (topoStep g m st pr).nodes = st.nodes := by
  unfold topoStep
  rcases JsMap.get m.nodes pr.1 with _ | n1
  · rfl
  rcases JsMap.get m.nodes pr.2 with _ | n2
  · rfl
  dsimp only
  split <;> rfl

theorem topoStep_links (g : Geom) (hg : ∀ q, 0 ≤ q → 0 ≤ g.sqrtq q)
    (m st : SpaceMesh) (pr : String × String)
    (hst : ∀ k l, JsMap.get st.links k = some l → 0 ≤ l.latencyMs) :
    ∀ k l, JsMap.get (topoStep g m st pr).links k = some l → 0 ≤ l.latencyMs := by
  intro k l
  unfold topoStep
  rcases JsMap.get m.nodes pr.1 with _ | n1
  · exact hst k l
  rcases JsMap.get m.nodes pr.2 with _ | n2
  · exact hst k l
  dsimp only
  split
  · intro h
    dsimp only at h
    have hlat : (0 : ℚ) ≤ calculateDistance g n1 n2 / speedOfLightKmS * 1000 := by
      apply mul_nonneg
      · apply div_nonneg (calculateDistance_nonneg g hg n1 n2)
        norm_num [speedOfLightKmS]
      · norm_num
    by_cases hk2 : k = pr.2 ++ "-" ++ pr.1
    · rw [hk2, JsMap.get_set_self] at h
      rw [← Option.some.inj h]
      exact hlat
    · rw [JsMap.get_set_ne _ _ _ _ hk2] at h
      by_cases hk1 : k = pr.1 ++ "-" ++ pr.2
      · rw [hk1, JsMap.get_set_self] at h
        rw [← Option.some.inj h]
        exact hlat
      · rw [JsMap.get_set_ne _ _ _ _ hk1] at h
        exact hst k l h
  · exact hst k l

theorem adjAdd_prop {P : String → Prop} {adj : JsMap String (List String)}
    {k v : String}
    (hst : ∀ u s, JsMap.get adj u = some s → ∀ x ∈ s, P x) (hv : P v) :
    ∀ u s, JsMap.get (adjAdd adj k v) u = some s → ∀ x ∈ s, P x := by
  unfold adjAdd
  rcases hk : JsMap.get adj k with _ | s0
  · exact hst
  · intro u s hu x hx
    by_cases huk : u = k
    · rw [huk, JsMap.get_set_self] at hu
      rw [← Option.some.inj hu] at hx
      unfold setAdd at hx
      by_cases hvm : v ∈ s0
      · rw [if_pos hvm] at hx
        exact hst k s0 hk x hx
      · rw [if_neg hvm] at hx
        rcases List.mem_append.mp hx with h1 | h1
        · exact hst k s0 hk x h1
        · rw [List.mem_singleton.mp h1]
          exact hv
    · rw [JsMap.get_set_ne adj k u _ huk] at hu
      exact hst u s hu x hx

theorem topoStep_adj (g : Geom) (m st : SpaceMesh) (pr : String × String)
    (hpr : pr.1 ∈ JsMap.keys m.nodes ∧ pr.2 ∈ JsMap.keys m.nodes)
    (hst : ∀ u s, JsMap.get st.adjacency u = some s →
      ∀ v ∈ s, v ∈ JsMap.keys m.nodes) :
    ∀ u s, JsMap.get (topoStep g m st pr).adjacency u = some s →
      ∀ v ∈ s, v ∈ JsMap.keys m.nodes := by
  unfold topoStep
  rcases JsMap.get m.nodes pr.1 with _ | n1
  · exact hst
  rcases JsMap.get m.nodes pr.2 with _ | n2
  · exact hst
  dsimp only
  split
  · dsimp only
    exact adjAdd_prop (adjAdd_prop hst hpr.2) hpr.1
  · exact hst

theorem get_map_const_nil (adj : JsMap String (List String)) (u : String) :
    ∀ s, JsMap.get (adj.map (fun kv => (kv.1, ([] : List String)))) u = some s →
      s = [] := by
  induction adj with
  | nil =>
    intro s h
    exact absurd h (by simp [JsMap.get, List.find?])
  | cons kv rest ih =>
    intro s h
    rw [List.map_cons] at h
    by_cases hk : kv.1 = u
    · have heq : JsMap.get ((kv.1, ([] : List String)) ::
          rest.map (fun kv => (kv.1, ([] : List String)))) u = some [] := by
        simp [JsMap.get, List.find?, hk]
      rw [heq] at h
      exact (Option.some.inj h).symm
    · have heq : JsMap.get ((kv.1, ([] : List String)) ::
          rest.map (fun kv => (kv.1, ([] : List String)))) u =
          JsMap.get (rest.map (fun kv => (kv.1, ([] : List String)))) u := by
        simp [JsMap.get, List.find?, hk]
      rw [heq] at h
      exact ih s h

theorem foldl_topoStep_props (g : Geom) (hg : ∀ q, 0 ≤ q → 0 ≤ g.sqrtq q)
    (m : SpaceMesh) :
    ∀ (prs : List (String × String)),
      (∀ p ∈ prs, p.1 ∈ JsMap.keys m.nodes ∧ p.2 ∈ JsMap.keys m.nodes) →
      ∀ (st : SpaceMesh), st.nodes = m.nodes →
        (∀ k l, JsMap.get st.links k = some l → 0 ≤ l.latencyMs) →
        (∀ u s, JsMap.get st.adjacency u = some s →
          ∀ v ∈ s, v ∈ JsMap.keys m.nodes) →
        (List.foldl (topoStep g m) st prs).nodes = m.nodes ∧
        (∀ k l, JsMap.get (List.foldl (topoStep g m) st prs).links k = some l →
          0 ≤ l.latencyMs) ∧
        (∀ u s, JsMap.get (List.foldl (topoStep g m) st prs).adjacency u = some s →
          ∀ v ∈ s, v ∈ JsMap.keys m.nodes) := by
  intro prs
  induction prs with
  | nil =>
    intro _ st h1 h2 h3
    exact ⟨h1, h2, h3⟩
  | cons pr rest ih =>
    intro hmem st h1 h2 h3
    rw [List.foldl_cons]
    refine ih (fun p hp => hmem p (List.mem_cons_of_mem pr hp)) _ ?_ ?_ ?_
    · rw [topoStep_nodes]
      exact h1
    · exact topoStep_links g hg m st pr h2
    · exact topoStep_adj g m st pr (hmem pr (List.mem_cons_self pr rest)) h3

theorem updateTopology_wf (g : Geom) (hg : ∀ q, 0 ≤ q → 0 ≤ g.sqrtq q)
    (m₀ : SpaceMesh) :
    MeshWF (SpaceMesh.updateTopology g m₀) OptimizeFor.latency := by
  obtain ⟨hnodes, hlinks, hadj⟩ := foldl_topoStep_props g hg m₀
    (allPairs (JsMap.keys m₀.nodes))
    (fun p hp => mem_allPairs hp)
    { m₀ with links := [],
              adjacency := m₀.adjacency.map (fun kv => (kv.1, ([] : List String))) }
    rfl
    (fun k l h => absurd h (by simp [JsMap.get, List.find?]))
    (fun u s h v hv => absurd ((get_map_const_nil m₀.adjacency u s h) ▸ hv)
      (List.not_mem_nil v))
  refine { adjReg := ?_, wNonneg := ?_ }
  · intro u s h v hv
    have h2 : v ∈ JsMap.keys m₀.nodes := hadj u s h v hv
    have h3 : (SpaceMesh.updateTopology g m₀).nodes = m₀.nodes := hnodes
    rw [show JsMap.keys (SpaceMesh.updateTopology g m₀).nodes =
      JsMap.keys m₀.nodes from by rw [h3]]
    exact h2
  · intro u v w he
    obtain ⟨_, l, hlink, _, hw⟩ := edgeW_elim he
    rw [hw]
    show (0 : ℚ) ≤ l.latencyMs
    exact hlinks _ l hlink

/-- C1: for every topology built by `updateTopology` (on a mesh whose nodes
were registered through `addNode`, with a `Math.sqrt` oracle that is
nonnegative on nonnegative inputs) and every pair of registered nodes
connected by a path of active links, `findRoute(source, dest, "latency")`
returns a route whose path runs from source to dest through active links,
whose `totalLatencyMs` is the per-hop latency sum of that path ROUNDED TO
3 DECIMALS (`Math.round(x*1000)/1000` — not the exact sum the claim
states), and whose exact per-hop latency sum is minimal over every walk of
the active-link graph (Dijkstra optimality). -/
theorem findRoute_latency_round3_optimal (g : Geom)
    (hg : ∀ q, 0 ≤ q → 0 ≤ g.sqrtq q) (range : ℚ) (nodes : List OrbitalNode)
    (source dest : String) (c₀ : ℚ)
    (hs : JsMap.has (SpaceMesh.updateTopology g (meshOfNodes range nodes)).nodes
      source = true)
    (hd : JsMap.has (SpaceMesh.updateTopology g (meshOfNodes range nodes)).nodes
      dest = true)
    (hreach : Walk (SpaceMesh.updateTopology g (meshOfNodes range nodes))
      OptimizeFor.latency source dest c₀) :
    ∃ s,
      ((SpaceMesh.updateTopology g (meshOfNodes range nodes)).findRoute source
        dest OptimizeFor.latency).path.head? = some source ∧
      ((SpaceMesh.updateTopology g (meshOfNodes range nodes)).findRoute source
        dest OptimizeFor.latency).path.getLast? = some dest ∧
      listWalkCost (SpaceMesh.updateTopology g (meshOfNodes range nodes))
        OptimizeFor.latency
        ((SpaceMesh.updateTopology g (meshOfNodes range nodes)).findRoute source
          dest OptimizeFor.latency).path = some s ∧
      ((SpaceMesh.updateTopology g (meshOfNodes range nodes)).findRoute source
        dest OptimizeFor.latency).totalLatencyMs = round3 s ∧
      ∀ c, Walk (SpaceMesh.updateTopology g (meshOfNodes range nodes))
        OptimizeFor.latency source dest c → s ≤ c :=
  findRoute_spec (updateTopology_wf g hg (meshOfNodes range nodes)) hs hd hreach

/-- C1 witness: the concrete two-node mesh at altitudes 550 km and 1550 km
(all angles zero, 1000 km apart, within range and line of sight). -/
theorem findRoute_latency_round3_optimal_witness :
    ∃ s,
      ((SpaceMesh.updateTopology exGeom
        (meshOfNodes 5000 [exNode "a" 550, exNode "b" 1550])).findRoute "a"
        "b" OptimizeFor.latency).path.head? = some "a" ∧
      ((SpaceMesh.updateTopology exGeom
        (meshOfNodes 5000 [exNode "a" 550, exNode "b" 1550])).findRoute "a"
        "b" OptimizeFor.latency).path.getLast? = some "b" ∧
      listWalkCost (SpaceMesh.updateTopology exGeom
        (meshOfNodes 5000 [exNode "a" 550, exNode "b" 1550]))
        OptimizeFor.latency
        ((SpaceMesh.updateTopology exGeom
          (meshOfNodes 5000 [exNode "a" 550, exNode "b" 1550])).findRoute "a"
          "b" OptimizeFor.latency).path = some s ∧
      ((SpaceMesh.updateTopology exGeom
        (meshOfNodes 5000 [exNode "a" 550, exNode "b" 1550])).findRoute "a"
        "b" OptimizeFor.latency).totalLatencyMs = round3 s ∧
      ∀ c, Walk (SpaceMesh.updateTopology exGeom
        (meshOfNodes 5000 [exNode "a" 550, exNode "b" 1550]))
        OptimizeFor.latency "a" "b" c → s ≤ c :=
  findRoute_latency_round3_optimal exGeom
    (by intro q hq
        unfold exGeom
        dsimp only
        split_ifs <;> norm_num)
    5000 [exNode "a" 550, exNode "b" 1550] "a" "b"
    (1000 / speedOfLightKmS * 1000 + 0)
    (by norm_num +decide [meshOfNodes, exGeom, exNode, SpaceMesh.updateTopology,
      topoStep, SpaceMesh.addNode, JsMap.has, JsMap.get, JsMap.set, JsMap.keys,
      allPairs, adjAdd, setAdd, calculateDistance, hasLineOfSight, earthRadiusKm,
      speedOfLightKmS, List.find?, List.foldl, List.foldr])
    (by norm_num +decide [meshOfNodes, exGeom, exNode, SpaceMesh.updateTopology,
      topoStep, SpaceMesh.addNode, JsMap.has, JsMap.get, JsMap.set, JsMap.keys,
      allPairs, adjAdd, setAdd, calculateDistance, hasLineOfSight, earthRadiusKm,
      speedOfLightKmS, List.find?, List.foldl, List.foldr])
    (Walk.cons
      (by norm_num +decide [edgeW, linkWeight, meshOfNodes, exGeom, exNode,
        SpaceMesh.updateTopology, topoStep, SpaceMesh.addNode, JsMap.has,
        JsMap.get, JsMap.set, JsMap.keys, allPairs, adjAdd, setAdd,
        calculateDistance, hasLineOfSight, earthRadiusKm, speedOfLightKmS,
        List.find?, List.foldl, List.foldr])
      (Walk.nil "b"))

/-- C1 counterexample to the claim as stated: on the two-node mesh the
returned route's path is `["a", "b"]` with exact per-hop latency sum
`10^9 / 299792458` ms (1000 km at the speed of light), but the stored
`totalLatencyMs` is the rounded `417/125 = 3.336`, which differs from the
exact sum — `totalLatencyMs` does not equal the per-hop latency sum. -/
theorem findRoute_latency_rounding_counterexample :
    (((SpaceMesh.updateTopology exGeom
      (meshOfNodes 5000 [exNode "a" 550, exNode "b" 1550])).findRoute "a" "b"
      OptimizeFor.latency).path =
        ["a", "b"]) ∧
    listWalkCost (SpaceMesh.updateTopology exGeom
      (meshOfNodes 5000 [exNode "a" 550, exNode "b" 1550])) OptimizeFor.latency
      ["a", "b"] = some (1000000000 / 299792458) ∧
    ((SpaceMesh.updateTopology exGeom
      (meshOfNodes 5000 [exNode "a" 550, exNode "b" 1550])).findRoute "a" "b"
      OptimizeFor.latency).totalLatencyMs = 417 / 125 ∧
    ¬ ((417 : ℚ) / 125 = 1000000000 / 299792458) := by
  norm_num +decide [SpaceMesh.findRoute, dijkstraLoop, relax, reconstructPath,
    routeMetrics, metricStep, totalAdjSize, pqLE,
    listWalkCost, edgeW, linkWeight, round2, round3, jsRound,
    meshOfNodes, exGeom, exNode, SpaceMesh.updateTopology, topoStep,
    SpaceMesh.addNode, JsMap.has, JsMap.get, JsMap.set, JsMap.keys, JsMap.empty,
    allPairs, adjAdd, setAdd, calculateDistance, hasLineOfSight, earthRadiusKm,
    speedOfLightKmS, List.find?, List.foldl, List.foldr, List.insertionSort,
    List.orderedInsert]
